import Mathlib

/-! Model-free ASL deconvolution: a shallow embedding of `asl_mfree_functions.cc`.

The C++ routines work on newmat matrices of floating-point numbers.  Here

* numbers are elements of an arbitrary linearly ordered field `α` (exact arithmetic; `ℚ` is
  used for concrete evaluation, `ℝ` is an instance).  Rounding is not modelled.  The two
  places where the code divides by a data-dependent quantity that may be zero
  (the oscillation index and the normalisation by `mag`) are modelled with an explicit
  IEEE outcome (`FloatVal`: finite, `+∞`, `-∞`, NaN), zero being the positive zero.
  The inverse `S.i()` of the singular values is the field inverse; a zero singular value, for
  which newmat produces a non-finite entry of `D`, is outside the model.
* a column vector with `n` rows is a function `Fin n → α`, a matrix is a Mathlib `Matrix`;
  the source is 1-based, `Fin` is 0-based: source row `i` is `⟨i - 1, _⟩`.
* the newmat routine `SVD(A, S, U, V)` is external to the repository; it is a parameter
  `SVD` of every function that calls it, and `IsSVD` states the contract of its output.
  Likewise `Maximum1` (contract `IsMaximum1`), the C library `rand()` with `RAND_MAX`, and
  `exp`, `cos`, `M_PI` are parameters.
* a NEWIMAGE volume is a function on all index triples: its value at an index is what a read
  at that index returns, inside the volume or outside it.
* a call that raises a newmat or NEWIMAGE exception returns `none`.
* progress output on `cout` is not modelled.
-/

namespace OXASL

variable {α : Type} [LinearOrderedField α]

/-! ## newmat primitives used by the source -/

/-- Entry `j` (0-based) of a column vector, `0` outside the vector. -/
def vget {n : ℕ} (v : Fin n → α) (j : ℕ) : α := if h : j < n then v ⟨j, h⟩ else 0

/-- The newmat element access `v(i)`, 1-based. -/
def get1 {n : ℕ} (v : Fin n → α) (i : ℕ) : α := if i = 0 then 0 else vget v (i - 1)

/-- The newmat element assignment `v(i) = x`, 1-based. -/
def set1 {n : ℕ} (v : Fin n → α) (i : ℕ) (x : α) : Fin n → α :=
  fun k => if k.val + 1 = i then x else v k

/-- The newmat `v.Rows(a, b)`: the entries `a..b` (1-based, inclusive) of a column vector, in
order.  `b = a - 1` gives the empty vector. -/
def Rows {n : ℕ} (v : Fin n → α) (a b : ℕ) : List α :=
  ((List.ofFn v).drop (a - 1)).take (b + 1 - a)

/-- The newmat assignment `M.SubMatrix(i, i, c1, c2) = row`: columns `c1..c2` (1-based,
inclusive) of row `i` are overwritten by the entries of `row`. -/
def setSubRow {n : ℕ} (M : Matrix (Fin n) (Fin n) α) (i c1 c2 : ℕ) (row : List α) :
    Matrix (Fin n) (Fin n) α :=
  fun r c =>
    if r.val + 1 = i ∧ c1 ≤ c.val + 1 ∧ c.val + 1 ≤ c2 then row.getD (c.val + 1 - c1) 0
    else M r c

/-- The newmat `M.Column(v)`; the voxel index is kept 0-based. -/
def Column {T V : ℕ} {β : Type} (M : Matrix (Fin T) (Fin V) β) (v : Fin V) : Fin T → β :=
  fun t => M t v

/-- Largest element of a list of stored entries, scanned from the first. -/
def listMax : List α → α
  | [] => 0
  | x :: xs => xs.foldl max x

/-- The newmat `r.Maximum()`: the largest entry of a vector (`0` for the empty vector, which
the source never builds). -/
def Maximum {n : ℕ} (r : Fin n → α) : α :=
  listMax (List.ofFn r)

/-- The newmat `x.SumAbsoluteValue()`. -/
def SumAbsoluteValue (l : List α) : α := (l.map (fun x => |x|)).sum

/-- The newmat vertical concatenation `x & padding` with a zero vector of `P` rows. -/
def padCol {T : ℕ} (x : Fin T → α) (P : ℕ) : Fin (T + P) → α :=
  fun i => if h : i.val < T then x ⟨i.val, h⟩ else 0

/-- Output `(U, S, V)` of the newmat routine `SVD(A, S, U, V)` on a square matrix; `S` is the
diagonal of the `DiagonalMatrix`. -/
structure SVDOut (n : ℕ) (α : Type) where
  /-- Left singular vectors (columns). -/
  U : Matrix (Fin n) (Fin n) α
  /-- Singular values. -/
  S : Fin n → α
  /-- Right singular vectors (columns). -/
  V : Matrix (Fin n) (Fin n) α

/-- Contract of the newmat routine `SVD`: `A = U·S·Vᵀ` with orthogonal `U`, `V` and
non-negative singular values. -/
def IsSVD {n : ℕ} (o : SVDOut n α) (A : Matrix (Fin n) (Fin n) α) : Prop :=
  o.U * Matrix.diagonal o.S * o.V.transpose = A ∧
  o.U.transpose * o.U = 1 ∧ o.V.transpose * o.V = 1 ∧ ∀ k, 0 ≤ o.S k

/-- Value of a floating-point quotient: a number, an infinity, or NaN. -/
inductive FloatVal (α : Type) where
  | finite (x : α)
  | posInf
  | negInf
  | nan
  deriving DecidableEq, Repr

/-- IEEE value of `1 / den * x` (equally of `x * (1 / den)`) for finite `den` and `x`:
`1 / 0 = +∞`, `∞ · 0 = NaN`, `∞ · x = ±∞` with the sign of `x`. -/
def recipMul (den x : α) : FloatVal α :=
  if den = 0 then (if x = 0 then .nan else if 0 < x then .posInf else .negInf)
  else .finite (1 / den * x)

/-- The comparison `o > t` with a finite `t`; false on NaN. -/
def FloatVal.gt (o : FloatVal α) (t : α) : Bool :=
  match o with
  | .finite x => decide (t < x)
  | .posInf => true
  | .negInf => false
  | .nan => false

/-- The comparison `o ≤ t` with a finite `t`; false on NaN. -/
def FloatVal.le (o : FloatVal α) (t : α) : Bool :=
  match o with
  | .finite x => decide (x ≤ t)
  | .posInf => false
  | .negInf => true
  | .nan => false

/-! ## Convolution matrices (`convmtx`, `convmtx_circular`) -/

/-- Source `convmtx`: `cmat = 0`, then for `i = 1..nentry` the assignment
`cmat.SubMatrix(i,i,1,i) = invec.Rows(1,i).Reverse().AsRow()`. -/
def convmtx {n : ℕ} (invec : Fin n → α) : Matrix (Fin n) (Fin n) α :=
  (List.range' 1 n).foldl (fun cmat i => setSubRow cmat i 1 i (Rows invec 1 i).reverse) 0

/-- Source `convmtx_circular`: as `convmtx`, followed in each row `i` by
`cmat.SubMatrix(i,i,i+1,nentry) = invec.Rows(i+1,nentry).Reverse().AsRow()`. -/
def convmtx_circular {n : ℕ} (invec : Fin n → α) : Matrix (Fin n) (Fin n) α :=
  (List.range' 1 n).foldl (fun cmat i =>
    setSubRow (setSubRow cmat i 1 i (Rows invec 1 i).reverse)
      i (i + 1) n (Rows invec (i + 1) n).reverse) 0

/-! ## `SVDdeconv` -/

/-- The product `V * D * U.t() * d` of the source, `D` diagonal. -/
def resolve {n : ℕ} (o : SVDOut n α) (D : Fin n → α) (d : Fin n → α) : Fin n → α :=
  (o.V * Matrix.diagonal D * o.U.transpose).mulVec d

/-- Source constant `truncfac` of `SVDdeconv`. -/
def truncfac : α := 2 / 10

/-- Truncation loop of `SVDdeconv`:
`for (i = 2; i <= D.Nrows(); i++) if (S(i,i) < truncfac * S(1,1)) D(i,i) = 0;`. -/
def truncate {n : ℕ} (S D : Fin n → α) : Fin n → α :=
  (List.range' 2 (n - 1)).foldl
    (fun D i => if get1 S i < truncfac * get1 S 1 then set1 D i 0 else D) D

/-- Source `SVDdeconv`: for each voxel `v`, `aifconv = dt * convmtx(aif.Column(v))`,
`SVD(aifconv, S, U, V)`, `D = S.i()`, truncation, and
`residue.Column(v) = V * D * U.t() * data.Column(v)`. -/
def SVDdeconv {T V : ℕ} (SVD : Matrix (Fin T) (Fin T) α → SVDOut T α)
    (data aif : Matrix (Fin T) (Fin V) α) (dt : α) : Matrix (Fin T) (Fin V) α :=
  Matrix.of fun t v =>
    let aifconv := dt • convmtx (Column aif v)
    let o := SVD aifconv
    let D := truncate o.S (fun k => (o.S k)⁻¹)
    resolve o D (Column data v) t

/-- The diagonal `D` as the specification words it: `D[1,1] = 1/S[1,1]`, and for `k ≥ 2`,
`D[k,k] = 0` if `S[k,k] < 0.2·S[1,1]` and `1/S[k,k]` otherwise. -/
def truncatedInverse {n : ℕ} (S : Fin n → α) (k : Fin n) : α :=
  if k.val = 0 then 1 / S k
  else if S k < 2 / 10 * S ⟨0, Nat.lt_of_le_of_lt (Nat.zero_le _) k.isLt⟩ then 0
  else 1 / S k

/-! ## `SVDdeconv_wu` and `Deconv` -/

/-- Source `int nextra = floor(nti * 1.2)`. -/
def nextra (nti : ℕ) : ℕ := nti * 12 / 10

/-- Source constant `oi_thresh` of `SVDdeconv_wu`. -/
def oi_thresh : α := 1 / 10

/-- The vector `resid.Rows(3, N) - 2 * resid.Rows(2, N - 1) + resid.Rows(1, N - 2)` of the
source, `N` the number of rows of `resid`. -/
def secondDiff {n : ℕ} (r : Fin n → α) : List α :=
  List.zipWith (· + ·)
    (List.zipWith (· - ·) (Rows r 3 n) ((Rows r 2 (n - 1)).map (2 * ·)))
    (Rows r 1 (n - 2))

/-- Oscillation index `1 / (m * resid.Maximum()) * (...).SumAbsoluteValue()`; the source uses
`m = nti` before the loop and `m = nti + nextra` inside it. -/
def oscIndex {n : ℕ} (m : ℕ) (r : Fin n → α) : FloatVal α :=
  recipMul ((m : α) * Maximum r) (SumAbsoluteValue (secondDiff r))

/-- State of the removal loop of `SVDdeconv_wu`: the loop variable `i`, the diagonal `D`, the
candidate `resid`, the last oscillation index `oi`, and (for the statements only) the list of
the indices whose `D(i,i)` was set to zero, in the order of the assignments. -/
structure WuState (n : ℕ) (α : Type) where
  /-- Loop variable. -/
  i : ℕ
  /-- Diagonal of the matrix `D`. -/
  D : Fin n → α
  /-- Candidate residue. -/
  resid : Fin n → α
  /-- Most recently computed oscillation index. -/
  oi : FloatVal α
  /-- Indices zeroed so far, oldest first. -/
  zeroed : List ℕ

/-- The loop `while (oi > oi_thresh & i > 1) { D(i,i) = 0; resid = V*D*U.t()*d;
oi = 1/((nti+nextra)*resid.Maximum()) * (...).SumAbsoluteValue(); i--; }` started in the state
`(i, D, resid, oi)`; `m` is `nti + nextra`. -/
def wuLoop {n : ℕ} (o : SVDOut n α) (d : Fin n → α) (m : ℕ) :
    ℕ → (Fin n → α) → (Fin n → α) → FloatVal α → List ℕ → WuState n α
  | 0, D, resid, oi, z => ⟨0, D, resid, oi, z⟩
  | i + 1, D, resid, oi, z =>
    if oi.gt oi_thresh && decide (i + 1 > 1) then
      let D1 := set1 D (i + 1) 0
      let resid1 := resolve o D1 d
      wuLoop o d m i D1 resid1 (oscIndex m resid1) (z ++ [i + 1])
    else ⟨i + 1, D, resid, oi, z⟩

/-- Body of the voxel loop of `SVDdeconv_wu` on the padded data column `d` (of `n = nti +
nextra` rows), given the output `o` of `SVD`: `D = S.i()`, first candidate with all singular
values, first oscillation index with divisor `nti`, then the removal loop from `i = n`. -/
def wuVoxel {n : ℕ} (o : SVDOut n α) (d : Fin n → α) (nti : ℕ) : WuState n α :=
  let D : Fin n → α := fun k => (o.S k)⁻¹
  let resid := resolve o D d
  wuLoop o d n n D resid (oscIndex nti resid) []

/-- State in which the removal loop of `SVDdeconv_wu` stops for voxel `v`:
`aifconv = dt * convmtx_circular(aif.Column(v) & padding)`, `SVD(aifconv, S, U, V)`, then
`wuVoxel` on `data.Column(v) & padding`. -/
def wuFinal {T V : ℕ}
    (SVD : Matrix (Fin (T + nextra T)) (Fin (T + nextra T)) α → SVDOut (T + nextra T) α)
    (data aif : Matrix (Fin T) (Fin V) α) (dt : α) (v : Fin V) : WuState (T + nextra T) α :=
  wuVoxel (SVD (dt • convmtx_circular (padCol (Column aif v) (nextra T))))
    (padCol (Column data v) (nextra T)) T

/-- Source `SVDdeconv_wu`: for each voxel, `aifconv = dt * convmtx_circular(aif.Column(v) &
padding)`, `SVD`, and the loop of `wuVoxel` on `data.Column(v) & padding`; the residue keeps
all `nti + nextra` rows. -/
def SVDdeconv_wu {T V : ℕ}
    (SVD : Matrix (Fin (T + nextra T)) (Fin (T + nextra T)) α → SVDOut (T + nextra T) α)
    (data aif : Matrix (Fin T) (Fin V) α) (dt : α) : Matrix (Fin (T + nextra T)) (Fin V) α :=
  Matrix.of fun t v => (wuFinal SVD data aif dt v).resid t

/-- Outputs of `Deconv`: the reference parameters `mag` and `resid`. -/
structure DeconvOut (T V : ℕ) (α : Type) where
  /-- Per-voxel magnitude. -/
  mag : Fin V → α
  /-- Normalised residue, as floating-point values. -/
  resid : Matrix (Fin (T + nextra T)) (Fin V) (FloatVal α)

/-- Source `Deconv`: `resid = SVDdeconv_wu(data, aif, dt)`, then for each voxel
`mag(v) = resid.Column(v).Maximum(); resid.Column(v) /= mag(v);`.  newmat divides a column by
multiplying it with `1.0 / mag(v)`.  The function has no error path. -/
def Deconv {T V : ℕ}
    (SVD : Matrix (Fin (T + nextra T)) (Fin (T + nextra T)) α → SVDOut (T + nextra T) α)
    (data aif : Matrix (Fin T) (Fin V) α) (dt : α) : DeconvOut T V α :=
  let resid := SVDdeconv_wu SVD data aif dt
  let mag : Fin V → α := fun v => Maximum (Column resid v)
  { mag := mag, resid := Matrix.of fun t v => recipMul (mag v) (resid t v) }

/-! ## Predicates and concrete inputs used in the statements -/

/-- Row `x` is a rotation (cyclic shift) of `a`: `x[j] = a[j + s]`, indices modulo `n`. -/
def IsRotationOf {n : ℕ} (x a : Fin n → α) : Prop := ∃ s : Fin n, ∀ j : Fin n, x j = a (j + s)

/-- The vector `a` read backwards (newmat `Reverse`). -/
def Reverse {n : ℕ} (a : Fin n → α) : Fin n → α := fun j => a (Fin.rev j)

/-- The index `(i - j) mod n`, taken in `0..n-1`. -/
def cmod (n i j : ℕ) : ℕ := (((i : ℤ) - (j : ℤ)) % (n : ℤ)).toNat

/-- The unit delta `[1, 0, …, 0]` as an AIF for `V` voxels. -/
def deltaAif (T V : ℕ) : Matrix (Fin T) (Fin V) α :=
  Matrix.of fun t _ => if t.val = 0 then 1 else 0

/-- An `SVD` that answers `(I, I, I)`: a valid decomposition of the identity matrix. -/
def idSVD (n : ℕ) : Matrix (Fin n) (Fin n) ℚ → SVDOut n ℚ := fun _ => ⟨1, fun _ => 1, 1⟩

/-- The vector `[1, 2, 3, 1, 2, 3]`. -/
def a6 : Fin 6 → ℚ := ![1, 2, 3, 1, 2, 3]

/-- Data of scenario S1: one voxel with `[0.5, 0.25, 0.125, 0.0625, 0.03125]`. -/
def dataS1 : Matrix (Fin 5) (Fin 1) α :=
  Matrix.of fun t _ => ![1 / 2, 1 / 4, 1 / 8, 1 / 16, 1 / 32] t

/-- Normalised residue expected in scenario S1 on the first five samples. -/
def normS1 : Fin 5 → α := ![1, 1 / 2, 1 / 4, 1 / 8, 1 / 16]

/-- One voxel, three time points, all data zero. -/
def zeroData3 : Matrix (Fin 3) (Fin 1) ℚ := 0

/-- One voxel, four time points: the AIF `[0, 3, 0, -4]`. -/
def a8 : Matrix (Fin 4) (Fin 1) ℚ := Matrix.of fun t _ => ![0, 3, 0, -4] t

/-- One voxel, four time points: the data `[37, 37, 9, 9]`. -/
def d8 : Matrix (Fin 4) (Fin 1) ℚ := Matrix.of fun t _ => ![37, 37, 9, 9] t

/-- Left singular vectors of the 8×8 circulant matrix of `[0, 3, 0, -4, 0, 0, 0, 0]`. -/
def U8 : Matrix (Fin 8) (Fin 8) ℚ := (1 / 10 : ℚ) • !![
  0, -5, 4, -4, -3, 3, 0, -5;
  5, 0, 3, 3, 4, 4, -5, 0;
  0, 5, 3, -3, 4, -4, 0, -5;
  -5, 0, -4, -4, 3, 3, -5, 0;
  0, -5, -4, 4, 3, -3, 0, -5;
  5, 0, -3, -3, -4, -4, -5, 0;
  0, 5, -3, 3, -4, 4, 0, -5;
  -5, 0, 4, 4, -3, -3, -5, 0]

/-- Singular values of the 8×8 circulant matrix of `[0, 3, 0, -4, 0, 0, 0, 0]`, descending. -/
def S8 : Fin 8 → ℚ := ![7, 7, 5, 5, 5, 5, 1, 1]

/-- Right singular vectors of the 8×8 circulant matrix of `[0, 3, 0, -4, 0, 0, 0, 0]`. -/
def V8 : Matrix (Fin 8) (Fin 8) ℚ := (1 / 2 : ℚ) • !![
  1, 0, 1, 1, 0, 0, 1, 0;
  0, 1, 1, -1, 0, 0, 0, 1;
  -1, 0, 0, 0, 1, 1, 1, 0;
  0, -1, 0, 0, 1, -1, 0, 1;
  1, 0, -1, -1, 0, 0, 1, 0;
  0, 1, -1, 1, 0, 0, 0, 1;
  -1, 0, 0, 0, -1, -1, 1, 0;
  0, -1, 0, 0, -1, 1, 0, 1]

/-- An `SVD` that answers `(U8, S8, V8)`, a valid decomposition of the padded circulant matrix
of the AIF `a8` (see `isSVD_svd8`). -/
def svd8 : Matrix (Fin (4 + nextra 4)) (Fin (4 + nextra 4)) ℚ → SVDOut (4 + nextra 4) ℚ :=
  fun _ => ⟨U8, S8, V8⟩

/-! ## `SVDdeconv_circular` and `BootStrap` -/

/-- Source `SVDdeconv_circular`: as `SVDdeconv`, on `convmtx_circular(aif.Column(v) & padding)`
and `data.Column(v) & padding`, keeping the first `nti` rows of the residue. -/
def SVDdeconv_circular {T V : ℕ}
    (SVD : Matrix (Fin (T + nextra T)) (Fin (T + nextra T)) α → SVDOut (T + nextra T) α)
    (data aif : Matrix (Fin T) (Fin V) α) (dt : α) : Matrix (Fin T) (Fin V) α :=
  Matrix.of fun t v =>
    let o := SVD (dt • convmtx_circular (padCol (Column aif v) (nextra T)))
    let D := truncate o.S (fun k => (o.S k)⁻¹)
    resolve o D (padCol (Column data v) (nextra T)) (Fin.castAdd (nextra T) t)

/-- Source `BootStrap`, the model fit: for each voxel
`aifconv = dt * convmtx_circular(aif.Column(v) & padding)`,
`mfittemp = aifconv * resid.Column(v)`, `modelfit.Column(v) = mfittemp.Rows(1, ntpts)`;
`P` is `nextra = resid.Nrows() - aif.Nrows()`. -/
def BootStrap_modelfit {T P V : ℕ} (aif : Matrix (Fin T) (Fin V) α)
    (resid : Matrix (Fin (T + P)) (Fin V) α) (dt : α) : Matrix (Fin T) (Fin V) α :=
  Matrix.of fun t v =>
    ((dt • convmtx_circular (padCol (Column aif v) P)).mulVec (Column resid v))
      (Fin.castAdd P t)

/-- Source `BootStrap`: `residuals = data - modelfit`. -/
def BootStrap_residuals {T P V : ℕ} (aif data : Matrix (Fin T) (Fin V) α)
    (resid : Matrix (Fin (T + P)) (Fin V) α) (dt : α) : Matrix (Fin T) (Fin V) α :=
  data - BootStrap_modelfit aif resid dt

/-- Source `BootStrap`, the Rademacher vector of replicate `b` (1-based): `Radevec = 1.0`, then
`if (rand() > RAND_MAX / 2) Radevec(i) = -1.0` for `i = 1..ntpts`.  `rand k` is the value of
the `k`-th call of `rand()` (0-based); replicate `b` makes the calls `(b-1)·ntpts + i - 1`.
`RAND_MAX` is the constant of the C library. -/
def Radevec (RAND_MAX : ℕ) (rand : ℕ → ℕ) (T b : ℕ) : Fin T → α :=
  fun i => if rand ((b - 1) * T + i.val) > RAND_MAX / 2 then -1 else 1

/-- Source `BootStrap`, the data of replicate `b`:
`WBresiduals.Column(v) = SP(residuals.Column(v), Radevec)` for each voxel, then
`WBdata = modelfit + WBresiduals`. -/
def BootStrap_WBdata {T P V : ℕ} (RAND_MAX : ℕ) (rand : ℕ → ℕ)
    (aif data : Matrix (Fin T) (Fin V) α) (resid : Matrix (Fin (T + P)) (Fin V) α) (dt : α)
    (b : ℕ) : Matrix (Fin T) (Fin V) α :=
  BootStrap_modelfit aif resid dt +
    Matrix.of fun t v => BootStrap_residuals aif data resid dt t v * Radevec RAND_MAX rand T b t

/-- Source `BootStrap`, row `b` of `magdist`: `estresid = SVDdeconv_wu(WBdata, aif, dt)` and
`magdist(b, v) = estresid.Column(v).Maximum()`.  The final `stdev` is a MISCMATHS routine and
is not modelled. -/
def BootStrap_magdist {T P V : ℕ}
    (SVD : Matrix (Fin (T + nextra T)) (Fin (T + nextra T)) α → SVDOut (T + nextra T) α)
    (RAND_MAX : ℕ) (rand : ℕ → ℕ)
    (aif data : Matrix (Fin T) (Fin V) α) (resid : Matrix (Fin (T + P)) (Fin V) α) (dt : α)
    (b : ℕ) : Fin V → α :=
  fun v => Maximum (Column (SVDdeconv_wu SVD (BootStrap_WBdata RAND_MAX rand aif data resid dt b)
    aif dt) v)

/-! ## `Estimate_BAT_difference` -/

/-- Contract of the newmat routine `Maximum1` on a column of `N` rows: the location it returns
(here 0-based) holds a largest entry.  Which one it returns among equal maxima is left open. -/
def IsMaximum1 {N : ℕ} (Maximum1 : (Fin N → α) → Fin N) : Prop :=
  ∀ (r : Fin N → α) (j : Fin N), r j ≤ r (Maximum1 r)

/-- Source `Estimate_BAT_difference`: for each voxel `battemp` is the 1-based location given
by `Maximum1`; `if (battemp > resid.Nrows() / 2) battemp -= resid.Nrows();` (integer division)
and `batd(v) = dt * (battemp - 1)`. -/
def Estimate_BAT_difference {N V : ℕ} (Maximum1 : (Fin N → α) → Fin N)
    (resid : Matrix (Fin N) (Fin V) α) (dt : α) : Fin V → α :=
  fun v =>
    let battemp : ℤ := ((Maximum1 (Column resid v)).val : ℤ) + 1
    let battemp2 : ℤ := if battemp > ((N / 2 : ℕ) : ℤ) then battemp - (N : ℤ) else battemp
    dt * ((battemp2 - 1 : ℤ) : α)

/-- A `Maximum1` that scans the column and keeps the last largest entry. -/
def lastMax {n : ℕ} (r : Fin (n + 1) → α) : Fin (n + 1) :=
  (List.finRange (n + 1)).foldl (fun b j => if r b ≤ r j then j else b) 0

/-- One voxel, five samples, residue `[0, 1, 0, 0, 0]`: the peak of scenario S2 (index 2). -/
def residS2 : Matrix (Fin 5) (Fin 1) ℚ := Matrix.of fun t _ => ![0, 1, 0, 0, 0] t

/-- One voxel, five samples, residue `[0, 0, 0, 1, 0]`: the peak of scenario S3 (index 4). -/
def residS3 : Matrix (Fin 5) (Fin 1) ℚ := Matrix.of fun t _ => ![0, 0, 0, 1, 0] t

/-- One voxel, five samples, residue `[0, 0, 1, 0, 0]`: a peak at index 3. -/
def residMid : Matrix (Fin 5) (Fin 1) ℚ := Matrix.of fun t _ => ![0, 0, 1, 0, 0] t

/-! ## `Estimate_onset` -/

/-- Source `kern << 0.006 << 0.061 << 0.242 << 0.383 << 0.242 << 0.061 << 0.006`. -/
def kern : List α :=
  [6 / 1000, 61 / 1000, 242 / 1000, 383 / 1000, 242 / 1000, 61 / 1000, 6 / 1000]

/-- Source `kernel = 0.0; kernel.Rows(1, kern.Nrows()) = kern;` for `ntpts ≥ 7`. -/
def onsetKernel (T : ℕ) : Fin T → α := fun i => (kern : List α).getD i.val 0

/-- Source loop `while (i < ntpts & cont) { if (dgrad(i) > gthresh) cont = false; else i++; }`
started at `i`; it returns the final `i`.  The first argument bounds the number of iterations;
`ntpts` of them always suffice. -/
def onsetLoop (dgrad : List α) (gthresh : α) (ntpts : ℕ) : ℕ → ℕ → ℕ
  | 0, i => i
  | f + 1, i =>
    if i < ntpts then
      if dgrad.getD (i - 1) 0 > gthresh then i else onsetLoop dgrad gthresh ntpts f (i + 1)
    else i

/-- Vector `smoothdata.Rows(2, ntpts) - smoothdata.Rows(1, ntpts - 1)` of the source. -/
def forwardDiff {T : ℕ} (smoothdata : Fin T → α) : List α :=
  List.zipWith (· - ·) (Rows smoothdata 2 T) (Rows smoothdata 1 (T - 1))

/-- Source `Estimate_onset`: `kernmtx = convmtx(kernel)`; for each curve
`smoothdata = kernmtx * curves.Column(v)`, `dgrad` its forward difference,
`gthresh = gradient_threshold * dgrad.Maximum()`, the loop from `i = 1`, and
`bate.Row(v) = (i - 1) * dt`.  With fewer than 7 time points the assignment of `kern`, and with
no curve `curves.Column(1)`, raise a newmat exception: the result is `none`. -/
def Estimate_onset {T V : ℕ} (curves : Matrix (Fin T) (Fin V) α) (dt gradient_threshold : α) :
    Option (Fin V → α) :=
  if T < 7 ∨ V = 0 then none
  else some fun v =>
    let kernmtx := convmtx (onsetKernel T : Fin T → α)
    let smoothdata := kernmtx.mulVec (Column curves v)
    let dgrad := forwardDiff smoothdata
    let gthresh := gradient_threshold * listMax dgrad
    let i := onsetLoop dgrad gthresh T T 1
    ((i : α) - 1) * dt

/-- The single curve `[0, 0, 0, 5, 5, 5, 5]` of scenario S4. -/
def curveS4 : Matrix (Fin 7) (Fin 1) ℚ := Matrix.of fun t _ => ![0, 0, 0, 5, 5, 5, 5] t

/-! ## `Correct_magnitude` -/

/-- Source expression `floor((batd(v) - 1e-3) / dt)`, the exponent of the flip-angle
correction. -/
def faExponent [FloorRing α] (batd dt : α) : ℤ := ⌊(batd - 1 / 1000) / dt⌋

/-- Source `Correct_magnitude`: `mag = SP(mag, exp(batd / T1))`, then, if `fa > 0`,
`mag(v) *= 1 / pow(cos(fa / 180 * M_PI), floor((batd(v) - 1e-3) / dt))` for each `v`.  The
functions `exp` and `cos` and the constant `M_PI` of the C library are parameters. -/
def Correct_magnitude [FloorRing α] {V : ℕ} (exp cos : α → α) (M_PI : α)
    (mag batd : Fin V → α) (T1 dt fa : α) : Fin V → α :=
  fun v =>
    let m1 := mag v * exp (batd v / T1)
    if fa > 0 then m1 * (1 / (cos (fa / 180 * M_PI)) ^ (faExponent (batd v) dt)) else m1

/-! ## `Prepare_AIF` -/

/-- Indices visited by the loops `for (int x = 0; x <= nx; x++) for (int y = 0; y <= ny; y++)
for (int z = 0; z <= nz; z++)` of the source, in the order of the visits. -/
def loopIndices (nx ny nz : ℕ) : List (ℕ × ℕ × ℕ) :=
  (List.range (nx + 1)).flatMap fun x =>
    (List.range (ny + 1)).flatMap fun y =>
      (List.range (nz + 1)).map fun z => (x, y, z)

/-- Source `dist = pow(sx - x, 2.0) + pow(sy - y, 2.0) + pow(sz - z, 2.0)`. -/
def sqDist (s q : ℕ × ℕ × ℕ) : α :=
  ((s.1 : α) - (q.1 : α)) ^ 2 + ((s.2.1 : α) - (q.2.1 : α)) ^ 2
    + ((s.2.2 : α) - (q.2.2 : α)) ^ 2

/-- Source constant `bestdist = 1e12`, the start value of the search. -/
def bestdist0 : α := 10 ^ 12

/-- The MISCMATHS call `mean(aifcand, 2)`: the time-wise mean of the candidate columns. -/
def meanCols {T : ℕ} (aifcand : List (Fin T → α)) : Fin T → α :=
  fun t => (aifcand.map (fun c => c t)).sum / (aifcand.length : α)

/-- Body of the donor search of `Prepare_AIF` for the query voxel `q` at the index `s`; the
state is `(bestdist, aifcand)`.  A volume is a function on all indices: its value at an index
is what the read `mask(x,y,z)`, `metric(x,y,z)` or `aif.voxelts(x,y,z)` returns there, also
outside the volume, where NEWIMAGE extrapolates.  `aifcand |= ...` on the empty `aifcand`
raises a newmat exception: `none`. -/
def candStep {T : ℕ} (mask metric : ℕ × ℕ × ℕ → α) (aif : ℕ × ℕ × ℕ → Fin T → α)
    (mthresh : α) (q : ℕ × ℕ × ℕ) (st : Option (α × List (Fin T → α))) (s : ℕ × ℕ × ℕ) :
    Option (α × List (Fin T → α)) :=
  match st with
  | none => none
  | some (bestdist, aifcand) =>
    if 0 < mask q ∧ mthresh ≤ metric s then
      if sqDist s q < bestdist then some (sqDist s q, [aif s])
      else if sqDist s q = bestdist then
        (if aifcand.isEmpty then none else some (bestdist, aifcand ++ [aif s]))
      else some (bestdist, aifcand)
    else some (bestdist, aifcand)

/-- Body of the voxel loop of `Prepare_AIF` at the index `q`, on the current AIF volume: if
`mask(q) > 0` and `metric(q) < mthresh`, the donor search over all loop indices and
`aif.setvoxelts(mean(aifcand, 2), x, y, z)`.  With no candidate the mean is an empty vector and
`setvoxelts` raises an exception: `none`. -/
def queryStep {T : ℕ} (nx ny nz : ℕ) (mask metric : ℕ × ℕ × ℕ → α) (mthresh : α)
    (st : Option (ℕ × ℕ × ℕ → Fin T → α)) (q : ℕ × ℕ × ℕ) :
    Option (ℕ × ℕ × ℕ → Fin T → α) :=
  match st with
  | none => none
  | some aif =>
    if 0 < mask q then
      if metric q < mthresh then
        match (loopIndices nx ny nz).foldl (candStep mask metric aif mthresh q)
            (some (bestdist0, [])) with
        | none => none
        | some (_, aifcand) =>
          if aifcand.isEmpty then none else some (Function.update aif q (meanCols aifcand))
      else some aif
    else some aif

/-- Source `Prepare_AIF` on a volume of size `nx × ny × nz`: the voxel loop over all loop
indices, updating the AIF volume in place. -/
def Prepare_AIF {T : ℕ} (nx ny nz : ℕ) (aif : ℕ × ℕ × ℕ → Fin T → α)
    (metric mask : ℕ × ℕ × ℕ → α) (mthresh : α) : Option (ℕ × ℕ × ℕ → Fin T → α) :=
  (loopIndices nx ny nz).foldl (queryStep nx ny nz mask metric mthresh) (some aif)

/-- The index `s` lies inside a volume of size `nx × ny × nz`. -/
def inVolume (nx ny nz : ℕ) (s : ℕ × ℕ × ℕ) : Prop := s.1 < nx ∧ s.2.1 < ny ∧ s.2.2 < nz

/-- The voxels of a volume of size `nx × ny × nz`. -/
def volume (nx ny nz : ℕ) : Finset (ℕ × ℕ × ℕ) :=
  Finset.range nx ×ˢ (Finset.range ny ×ˢ Finset.range nz)

/-- The voxels `s` of the volume with `metric(s) ≥ mthresh` whose squared distance to `q` is
minimal among such voxels. -/
def nearestDonors (nx ny nz : ℕ) (metric : ℕ × ℕ × ℕ → α) (mthresh : α) (q : ℕ × ℕ × ℕ) :
    Finset (ℕ × ℕ × ℕ) :=
  (volume nx ny nz).filter fun s =>
    mthresh ≤ metric s ∧
      ∀ s2 ∈ volume nx ny nz, mthresh ≤ metric s2 → (sqDist s q : α) ≤ sqDist s2 q

/-- Time-wise mean of the AIFs of the nearest donors of `q`. -/
def donorMean {T : ℕ} (nx ny nz : ℕ) (aif : ℕ × ℕ × ℕ → Fin T → α)
    (metric : ℕ × ℕ × ℕ → α) (mthresh : α) (q : ℕ × ℕ × ℕ) : Fin T → α :=
  fun t => (∑ s in nearestDonors nx ny nz metric mthresh q, aif s t)
    / ((nearestDonors nx ny nz metric mthresh q).card : α)

/-- Mask of a volume of size `2 × 1 × 1`, both voxels in the mask; `0` outside the volume. -/
def maskTwo : ℕ × ℕ × ℕ → ℚ := fun q => if q = (0, 0, 0) ∨ q = (1, 0, 0) then 1 else 0

/-- Metric of a volume of size `2 × 1 × 1`: `-1` at `(0, 0, 0)`, `5` at `(1, 0, 0)`; `0`
outside the volume (a zero-padded read). -/
def metricTwo : ℕ × ℕ × ℕ → ℚ :=
  fun s => if s = (0, 0, 0) then -1 else if s = (1, 0, 0) then 5 else 0

/-- AIF volume of size `2 × 1 × 1` with one time point: `3` at `(0, 0, 0)`, `6` at
`(1, 0, 0)`; `0` outside the volume (a zero-padded read). -/
def aifTwo : ℕ × ℕ × ℕ → Fin 1 → ℚ :=
  fun s _ => if s = (0, 0, 0) then 3 else if s = (1, 0, 0) then 6 else 0

/-! ## Lemmas and theorems -/

/-! ### Closed forms of the convolution matrices -/

theorem getD_ofFn {n : ℕ} (v : Fin n → α) (j : ℕ) : (List.ofFn v).getD j 0 = vget v j := by
  unfold vget
  by_cases h : j < n
  · rw [dif_pos h, List.getD_eq_getElem _ _ (by simpa using h)]
    simp
  · rw [dif_neg h, List.getD_eq_default _ _ (by simpa using h)]

theorem slice_rev_getD (L : List α) (a b k : ℕ) (hk : k < b) (hab : a + b ≤ L.length) :
    ((L.drop a).take b).reverse.getD k 0 = L.getD (a + b - 1 - k) 0 := by
  have hlen : ((L.drop a).take b).length = b := by simp; omega
  rw [List.getD_eq_getElem?_getD, List.getD_eq_getElem?_getD,
    List.getElem?_reverse (by omega), hlen, List.getElem?_take_of_lt (by omega), List.getElem?_drop]
  congr 2
  omega

theorem Rows_head_rev {n : ℕ} (v : Fin n → α) (i k : ℕ) (hi : i ≤ n) (hk : k < i) :
    (Rows v 1 i).reverse.getD k 0 = vget v (i - 1 - k) := by
  unfold Rows
  rw [slice_rev_getD _ _ _ _ (by omega) (by simp; omega), getD_ofFn]
  congr 1
  omega

theorem Rows_tail_rev {n : ℕ} (v : Fin n → α) (i k : ℕ) (hi : i ≤ n) (hk : k < n - i) :
    (Rows v (i + 1) n).reverse.getD k 0 = vget v (n - 1 - k) := by
  unfold Rows
  rw [slice_rev_getD _ _ _ _ (by omega) (by simp; omega), getD_ofFn]
  congr 1
  omega

theorem setSubRow_apply {n : ℕ} (M : Matrix (Fin n) (Fin n) α) (i c1 c2 : ℕ) (row : List α)
    (r c : Fin n) :
    setSubRow M i c1 c2 row r c =
      if r.val + 1 = i ∧ c1 ≤ c.val + 1 ∧ c.val + 1 ≤ c2 then row.getD (c.val + 1 - c1) 0
      else M r c := rfl

theorem convmtx_fold {n : ℕ} (v : Fin n → α) (m : ℕ) (hm : m ≤ n) (r c : Fin n) :
    ((List.range' 1 m).foldl (fun cmat i => setSubRow cmat i 1 i (Rows v 1 i).reverse)
      (0 : Matrix (Fin n) (Fin n) α)) r c
      = if r.val < m ∧ c.val ≤ r.val then vget v (r.val - c.val) else 0 := by
  induction m with
  | zero => simp
  | succ m ih =>
    rw [List.range'_1_concat, List.foldl_append]
    simp only [List.foldl_cons, List.foldl_nil]
    rw [setSubRow_apply, ih (by omega)]
    by_cases h1 : r.val + 1 = 1 + m ∧ 1 ≤ c.val + 1 ∧ c.val + 1 ≤ 1 + m
    · rw [if_pos h1, if_pos (by omega)]
      rw [Rows_head_rev v (1 + m) _ (by omega) (by omega)]
      congr 1
      omega
    · rw [if_neg h1]
      by_cases h2 : r.val < m ∧ c.val ≤ r.val
      · rw [if_pos h2, if_pos (by omega)]
      · rw [if_neg h2, if_neg (by omega)]

theorem convmtx_circular_fold {n : ℕ} (v : Fin n → α) (m : ℕ) (hm : m ≤ n) (r c : Fin n) :
    ((List.range' 1 m).foldl (fun cmat i =>
      setSubRow (setSubRow cmat i 1 i (Rows v 1 i).reverse) i (i + 1) n (Rows v (i + 1) n).reverse)
      (0 : Matrix (Fin n) (Fin n) α)) r c
      = if r.val < m then
          (if c.val ≤ r.val then vget v (r.val - c.val) else vget v (n + r.val - c.val))
        else 0 := by
  induction m with
  | zero => simp
  | succ m ih =>
    rw [List.range'_1_concat, List.foldl_append]
    simp only [List.foldl_cons, List.foldl_nil]
    rw [setSubRow_apply, setSubRow_apply, ih (by omega)]
    have hc := c.isLt
    by_cases hr : r.val + 1 = 1 + m
    · by_cases hcr : c.val ≤ r.val
      · rw [if_neg (by omega), if_pos (by omega), if_pos (by omega), if_pos hcr]
        rw [Rows_head_rev v (1 + m) _ (by omega) (by omega)]
        congr 1
        omega
      · rw [if_pos (by omega), if_pos (by omega), if_neg hcr]
        rw [Rows_tail_rev v (1 + m) _ (by omega) (by omega)]
        congr 1
        omega
    · rw [if_neg (by omega), if_neg (by omega)]
      by_cases h2 : r.val < m
      · rw [if_pos h2, if_pos (show r.val < m + 1 by omega)]
      · rw [if_neg h2, if_neg (show ¬ r.val < m + 1 by omega)]


/-- Entries of `convmtx`. -/
theorem convmtx_apply {n : ℕ} (v : Fin n → α) (r c : Fin n) :
    convmtx v r c = if c.val ≤ r.val then vget v (r.val - c.val) else 0 := by
  unfold convmtx
  rw [convmtx_fold v n le_rfl]
  simp [r.isLt]

/-- Entries of `convmtx_circular`, without remainders. -/
theorem convmtx_circular_apply {n : ℕ} (v : Fin n → α) (r c : Fin n) :
    convmtx_circular v r c =
      if c.val ≤ r.val then vget v (r.val - c.val) else vget v (n + r.val - c.val) := by
  unfold convmtx_circular
  rw [convmtx_circular_fold v n le_rfl]
  simp [r.isLt]


theorem vget_eq {n : ℕ} (v : Fin n → α) (j : ℕ) (h : j < n) : vget v j = v ⟨j, h⟩ := by
  simp [vget, h]

theorem cmod_of_le (n i j : ℕ) (hji : j ≤ i) (hi : i < n) : cmod n i j = i - j := by
  unfold cmod
  rw [Int.emod_eq_of_lt (by omega) (by omega)]
  omega

theorem cmod_of_lt (n i j : ℕ) (hij : i < j) (hj : j < n) : cmod n i j = n + i - j := by
  unfold cmod
  rw [← Int.add_emod_self, Int.emod_eq_of_lt (by omega) (by omega)]
  omega

theorem cmod_lt (n i j : ℕ) (hi : i < n) (hj : j < n) : cmod n i j < n := by
  rcases Nat.lt_or_ge i j with h | h
  · rw [cmod_of_lt n i j h hj]; omega
  · rw [cmod_of_le n i j h hi]; omega

theorem convmtx_circular_cmod {n : ℕ} (v : Fin n → α) (i j : Fin n) :
    convmtx_circular v i j = v ⟨cmod n i.val j.val, cmod_lt n _ _ i.isLt j.isLt⟩ := by
  rw [convmtx_circular_apply, ← vget_eq v _ (cmod_lt n _ _ i.isLt j.isLt)]
  by_cases h : j.val ≤ i.val
  · rw [if_pos h, cmod_of_le n _ _ h i.isLt]
  · rw [if_neg h, cmod_of_lt n _ _ (by omega) j.isLt]

theorem convmtx_circular_sub {n : ℕ} (v : Fin (n + 1) → α) (i j : Fin (n + 1)) :
    convmtx_circular v i j = v (i - j) := by
  rw [convmtx_circular_apply]
  have hi := i.isLt
  have hj := j.isLt
  have hs : (i - j).val = if j.val ≤ i.val then i.val - j.val else n + 1 + i.val - j.val := by
    rw [Fin.sub_def]
    simp only
    split_ifs with h
    · rw [show n + 1 - j.val + i.val = (i.val - j.val) + (n + 1) by omega, Nat.add_mod_right,
        Nat.mod_eq_of_lt (by omega)]
    · rw [Nat.mod_eq_of_lt (by omega)]; omega
  have : v (i - j) = vget v (i - j).val := by rw [vget_eq v _ (i - j).isLt]
  rw [this, hs]
  split_ifs <;> rfl

/-- C8: for every vector `v` of length `n`, entry `[i,j]` of `convmtx v` is `v[i-j+1]` for `j ≤ i`
and `0` for `j > i` (1-based; with 0-based `i`, `j` the index is `i - j`), and for every `r` the
`i`-th entry of `convmtx v · r` is the causal convolution sum `Σ_{j ≤ i} v[i-j+1]·r[j]`. -/
theorem convmtx_causal {n : ℕ} (v : Fin n → α) :
    (∀ i j : Fin n, convmtx v i j =
      if j ≤ i then v ⟨i.val - j.val, lt_of_le_of_lt (Nat.sub_le _ _) i.isLt⟩ else 0) ∧
    (∀ (r : Fin n → α) (i : Fin n), (convmtx v).mulVec r i =
      ∑ j in Finset.Iic i, v ⟨i.val - j.val, lt_of_le_of_lt (Nat.sub_le _ _) i.isLt⟩ * r j) := by
  have h1 : ∀ i j : Fin n, convmtx v i j =
      if j ≤ i then v ⟨i.val - j.val, lt_of_le_of_lt (Nat.sub_le _ _) i.isLt⟩ else 0 := by
    intro i j
    rw [convmtx_apply]
    by_cases h : j ≤ i
    · rw [if_pos h, if_pos (show j.val ≤ i.val from h), vget_eq]
    · rw [if_neg h, if_neg (show ¬ j.val ≤ i.val from h)]
  refine ⟨h1, ?_⟩
  intro r i
  simp only [Matrix.mulVec, Matrix.dotProduct, h1]
  rw [← Finset.sum_filter_add_sum_filter_not Finset.univ (fun j => j ≤ i)]
  have hz : ∑ x ∈ Finset.filter (fun x => ¬ x ≤ i) Finset.univ,
      (if x ≤ i then v ⟨i.val - x.val, lt_of_le_of_lt (Nat.sub_le _ _) i.isLt⟩ else 0) * r x
        = 0 := by
    apply Finset.sum_eq_zero
    intro x hx
    rw [if_neg (Finset.mem_filter.mp hx).2, zero_mul]
  rw [hz, add_zero]
  have hI : Finset.filter (fun j => j ≤ i) Finset.univ = Finset.Iic i := by
    ext x; simp
  rw [hI]
  apply Finset.sum_congr rfl
  intro x hx
  rw [if_pos (Finset.mem_Iic.mp hx)]

/-- C9: for every vector `v` of length `n` and all rows `i` and columns `j`, entry `[i,j]` of
`convmtx_circular v` is `v[((i-j) mod n) + 1]` (1-based; 0-based the index is `(i-j) mod n`, the
remainder taken in `0..n-1`).  The last row, whose right-hand block is empty, is included. -/
theorem convmtx_circular_entries {n : ℕ} (v : Fin n → α) (i j : Fin n) :
    ∃ h : (((i.val : ℤ) - (j.val : ℤ)) % (n : ℤ)).toNat < n,
      convmtx_circular v i j = v ⟨(((i.val : ℤ) - (j.val : ℤ)) % (n : ℤ)).toNat, h⟩ :=
  ⟨cmod_lt n _ _ i.isLt j.isLt, convmtx_circular_cmod v i j⟩

/-- C10 as stated fails at `a = [1, 2, 3, 1, 2, 3]`: the first row of `convmtx_circular a` is
`[1, 3, 2, 1, 3, 2]`, which is no rotation of `a`, and rows 1 and 4 are equal. -/
theorem convmtx_circular_rows_not_distinct :
    (¬ IsRotationOf (convmtx_circular a6 0) a6) ∧
    ((0 : Fin 6) ≠ 3 ∧ convmtx_circular a6 0 = convmtx_circular a6 3) := by
  unfold IsRotationOf
  decide!

/-- C10, amended: every row of `convmtx_circular a` is a rotation of the reversal of `a`, each
row is the previous one shifted cyclically one place to the right, and rows `i` and `k` are
equal exactly when `a` is invariant under the rotation by `i - k` places. -/
theorem convmtx_circular_rows {n : ℕ} (a : Fin (n + 1) → α) :
    (∀ i : Fin (n + 1), IsRotationOf (convmtx_circular a i) (Reverse a)) ∧
    (∀ i j : Fin (n + 1), convmtx_circular a (i + 1) (j + 1) = convmtx_circular a i j) ∧
    (∀ i k : Fin (n + 1), convmtx_circular a i = convmtx_circular a k ↔
      ∀ j : Fin (n + 1), a (j + (i - k)) = a j) := by
  refine ⟨?_, ?_, ?_⟩
  · intro i
    refine ⟨-(i + 1), fun j => ?_⟩
    rw [convmtx_circular_sub, Reverse]
    congr 1
    have hl : Fin.last n = -1 := Fin.ext (by rw [Fin.coe_neg_one]; rfl)
    rw [← Fin.last_sub, hl]
    abel
  · intro i j
    rw [convmtx_circular_sub, convmtx_circular_sub]
    congr 1
    abel
  · intro i k
    constructor
    · intro h j
      have := congrFun h (k - j)
      rw [convmtx_circular_sub, convmtx_circular_sub] at this
      rw [show j + (i - k) = i - (k - j) by abel, this]
      congr 1
      abel
    · intro h
      funext j
      rw [convmtx_circular_sub, convmtx_circular_sub]
      rw [← h (k - j)]
      congr 1
      abel

/-! ### `SVDdeconv`: truncation and the delta identity -/

theorem set1_apply {n : ℕ} (D : Fin n → α) (i : ℕ) (x : α) (k : Fin n) :
    set1 D i x k = if k.val + 1 = i then x else D k := rfl

theorem get1_succ {n : ℕ} (S : Fin n → α) (k : Fin n) : get1 S (k.val + 1) = S k := by
  simp [get1, vget]

theorem truncate_fold {n : ℕ} (S D : Fin n → α) (m : ℕ) (k : Fin n) :
    ((List.range' 2 m).foldl
      (fun D i => if get1 S i < truncfac * get1 S 1 then set1 D i 0 else D) D) k
      = if 2 ≤ k.val + 1 ∧ k.val + 1 < 2 + m ∧ S k < truncfac * get1 S 1 then 0 else D k := by
  induction m with
  | zero =>
    simp only [List.range'_zero, List.foldl_nil]
    rw [if_neg]
    rintro ⟨h1, h2, _⟩
    omega
  | succ m ih =>
    rw [List.range'_1_concat, List.foldl_append]
    simp only [List.foldl_cons, List.foldl_nil]
    by_cases hc : get1 S (2 + m) < truncfac * get1 S 1
    · rw [if_pos hc]
      rw [set1_apply]
      by_cases hk : k.val + 1 = 2 + m
      · rw [if_pos hk, if_pos]
        refine ⟨by omega, by omega, ?_⟩
        rw [← get1_succ S k, hk]; exact hc
      · rw [if_neg hk, ih]
        by_cases h3 : 2 ≤ k.val + 1 ∧ k.val + 1 < 2 + m ∧ S k < truncfac * get1 S 1
        · rw [if_pos h3, if_pos ⟨h3.1, by omega, h3.2.2⟩]
        · rw [if_neg h3, if_neg]
          rintro ⟨h4, h5, h6⟩
          exact h3 ⟨h4, by omega, h6⟩
    · rw [if_neg hc, ih]
      by_cases h3 : 2 ≤ k.val + 1 ∧ k.val + 1 < 2 + m ∧ S k < truncfac * get1 S 1
      · rw [if_pos h3, if_pos ⟨h3.1, by omega, h3.2.2⟩]
      · rw [if_neg h3, if_neg]
        rintro ⟨h4, h5, h6⟩
        by_cases hk : k.val + 1 = 2 + m
        · apply hc
          rw [← hk, get1_succ]; exact h6
        · exact h3 ⟨h4, by omega, h6⟩

theorem truncate_apply {n : ℕ} (S : Fin n → α) (k : Fin n) :
    truncate S (fun k => (S k)⁻¹) k = truncatedInverse S k := by
  unfold truncate truncatedInverse
  rw [truncate_fold]
  have h0 : get1 S 1 = S ⟨0, Nat.lt_of_le_of_lt (Nat.zero_le _) k.isLt⟩ := by
    have := get1_succ S ⟨0, Nat.lt_of_le_of_lt (Nat.zero_le _) k.isLt⟩
    simpa using this
  rw [h0]
  have hk := k.isLt
  by_cases hk0 : k.val = 0
  · rw [if_pos hk0, if_neg (by omega), one_div]
  · rw [if_neg hk0]
    by_cases hc : S k < 2 / 10 * S ⟨0, Nat.lt_of_le_of_lt (Nat.zero_le _) k.isLt⟩
    · rw [if_pos hc, if_pos ⟨by omega, by omega, hc⟩]
    · rw [if_neg hc, if_neg (fun h => hc h.2.2), one_div]

/-- C1: for every data, aif, dt and voxel `v`, with `(U, S, V)` the output of `SVD` on
`dt·convmtx(aif[:,v])`, `SVDdeconv` returns `residue[:,v] = V·D·Uᵀ·data[:,v]` where `D` is
diagonal with `D[1,1] = 1/S[1,1]` and, for `k ≥ 2`, `D[k,k] = 0` if `S[k,k] < 0.2·S[1,1]` and
`1/S[k,k]` otherwise (`truncatedInverse`). -/
theorem SVDdeconv_truncated_pseudoinverse {T V : ℕ}
    (SVD : Matrix (Fin T) (Fin T) α → SVDOut T α)
    (data aif : Matrix (Fin T) (Fin V) α) (dt : α) (t : Fin T) (v : Fin V) :
    SVDdeconv SVD data aif dt t v =
      (((SVD (dt • convmtx (Column aif v))).V
          * Matrix.diagonal (truncatedInverse (SVD (dt • convmtx (Column aif v))).S)
          * (SVD (dt • convmtx (Column aif v))).U.transpose).mulVec (Column data v)) t := by
  have h : truncate (SVD (dt • convmtx (Column aif v))).S
      (fun k => ((SVD (dt • convmtx (Column aif v))).S k)⁻¹)
      = truncatedInverse (SVD (dt • convmtx (Column aif v))).S :=
    funext fun k => truncate_apply _ k
  simp only [SVDdeconv, Matrix.of_apply, resolve, h]

/-- Any valid decomposition of `c·I`, `c > 0`, has all singular values equal to `c` and
`V·Uᵀ = I`. -/
theorem isSVD_smul_one {n : ℕ} (o : SVDOut n α) (c : α) (hc : 0 < c)
    (h : IsSVD o (c • (1 : Matrix (Fin n) (Fin n) α))) :
    (∀ k, o.S k = c) ∧ o.V * o.U.transpose = 1 := by
  obtain ⟨hA, hU, hV, hS⟩ := h
  have hU2 : o.U * o.U.transpose = 1 := Matrix.mul_eq_one_comm.mp hU
  have hV2 : o.V * o.V.transpose = 1 := Matrix.mul_eq_one_comm.mp hV
  have hd : Matrix.diagonal o.S = c • (o.U.transpose * o.V) := by
    have : o.U.transpose * (o.U * Matrix.diagonal o.S * o.V.transpose) * o.V
        = o.U.transpose * (c • (1 : Matrix (Fin n) (Fin n) α)) * o.V := by rw [hA]
    rw [Matrix.mul_assoc o.U, ← Matrix.mul_assoc o.U.transpose, hU, Matrix.one_mul,
      Matrix.mul_assoc, hV, Matrix.mul_one] at this
    rw [this]
    simp
  have hsq : Matrix.diagonal o.S * Matrix.diagonal o.S = (c * c) • (1 : Matrix (Fin n) (Fin n) α) := by
    have ht : (Matrix.diagonal o.S).transpose = Matrix.diagonal o.S := Matrix.diagonal_transpose _
    nth_rewrite 1 [← ht]
    rw [hd, Matrix.transpose_smul, Matrix.transpose_mul, Matrix.transpose_transpose,
      Matrix.smul_mul, Matrix.mul_smul, Matrix.mul_assoc, ← Matrix.mul_assoc o.U, hU2,
      Matrix.one_mul, hV, smul_smul]
  have hSk : ∀ k, o.S k = c := by
    intro k
    have := congrFun (congrFun hsq k) k
    simp [Matrix.diagonal_mul_diagonal] at this
    have h2 : (o.S k - c) * (o.S k + c) = 0 := by ring_nf; ring_nf at this; rw [this]; ring
    rcases mul_eq_zero.mp h2 with h3 | h3
    · exact sub_eq_zero.mp h3
    · have := hS k
      exfalso
      have : 0 < o.S k + c := by positivity
      exact (ne_of_gt this) h3
  refine ⟨hSk, ?_⟩
  have hS1 : Matrix.diagonal o.S = c • (1 : Matrix (Fin n) (Fin n) α) := by
    ext i j
    by_cases hij : i = j
    · subst hij; simp [hSk]
    · simp [hij]
  have hUV : o.U * o.V.transpose = 1 := by
    rw [hS1, Matrix.mul_smul, Matrix.mul_one, Matrix.smul_mul] at hA
    have := congrArg (fun M => c⁻¹ • M) hA
    simpa [smul_smul, inv_mul_cancel₀ (ne_of_gt hc)] using this
  have := congrArg Matrix.transpose hUV
  simpa [Matrix.transpose_mul] using this

theorem vget_delta (T : ℕ) (j : ℕ) (hj : j < T) :
    vget (fun t : Fin T => if t.val = 0 then (1 : α) else 0) j = if j = 0 then 1 else 0 := by
  simp [vget, hj]

theorem convmtx_delta (T : ℕ) :
    convmtx (fun t : Fin T => if t.val = 0 then (1 : α) else 0) = 1 := by
  ext r c
  rw [convmtx_apply, Matrix.one_apply]
  have hr := r.isLt
  have hc := c.isLt
  by_cases h : c.val ≤ r.val
  · rw [if_pos h, vget_delta T _ (by omega)]
    by_cases h2 : r = c
    · subst h2; simp
    · rw [if_neg h2, if_neg]
      intro h3
      exact h2 (Fin.ext (by omega))
  · rw [if_neg h, if_neg]
    intro h2
    subst h2
    exact h le_rfl

theorem truncatedInverse_const {n : ℕ} (c : α) (hc : 0 < c) (S : Fin n → α) (hS : ∀ k, S k = c) :
    truncatedInverse S = fun _ => c⁻¹ := by
  funext k
  unfold truncatedInverse
  rw [hS, hS]
  have : ¬ c < 2 / 10 * c := by
    intro h
    nlinarith
  rw [if_neg this]
  simp

theorem resolve_const {n : ℕ} (o : SVDOut n α) (c : α) (hVU : o.V * o.U.transpose = 1)
    (d : Fin n → α) : resolve o (fun _ => c) d = c • d := by
  unfold resolve
  have : Matrix.diagonal (fun _ : Fin n => c) = c • (1 : Matrix (Fin n) (Fin n) α) := by
    ext i j
    by_cases hij : i = j
    · subst hij; simp
    · simp [hij]
  rw [this, Matrix.mul_smul, Matrix.mul_one, Matrix.smul_mul, hVU, Matrix.smul_mulVec_assoc,
    Matrix.one_mulVec]

/-- C2 (delta-AIF identity): for every `T`, every `dt > 0` and every `s`, `SVDdeconv` applied
to `data = dt·s` with every AIF column `[1, 0, …, 0]` returns exactly `s`, whatever valid
decomposition `SVD` returns for `dt·I`; no singular value is truncated. -/
theorem SVDdeconv_delta_identity {T V : ℕ} (SVD : Matrix (Fin T) (Fin T) α → SVDOut T α)
    (dt : α) (hdt : 0 < dt) (s : Matrix (Fin T) (Fin V) α)
    (hsvd : IsSVD (SVD (dt • (1 : Matrix (Fin T) (Fin T) α)))
      (dt • (1 : Matrix (Fin T) (Fin T) α))) :
    SVDdeconv SVD (dt • s) (deltaAif T V) dt = s ∧
    ∀ k : Fin T, truncate (SVD (dt • (1 : Matrix (Fin T) (Fin T) α))).S
      (fun k => ((SVD (dt • (1 : Matrix (Fin T) (Fin T) α))).S k)⁻¹) k = dt⁻¹ := by
  obtain ⟨hS, hVU⟩ := isSVD_smul_one _ dt hdt hsvd
  have htr : truncate (SVD (dt • (1 : Matrix (Fin T) (Fin T) α))).S
      (fun k => ((SVD (dt • (1 : Matrix (Fin T) (Fin T) α))).S k)⁻¹) = fun _ => dt⁻¹ := by
    rw [← truncatedInverse_const dt hdt _ hS]
    exact funext fun k => truncate_apply _ k
  refine ⟨?_, fun k => congrFun htr k⟩
  ext t v
  have hc : convmtx (Column (deltaAif T V) v) = (1 : Matrix (Fin T) (Fin T) α) :=
    convmtx_delta T
  simp only [SVDdeconv, Matrix.of_apply, hc]
  rw [htr, resolve_const _ _ hVU]
  simp [Column, inv_mul_cancel_left₀ (ne_of_gt hdt)]

/-- The triple `(I, I, I)` is a valid decomposition of the identity matrix. -/
theorem isSVD_idSVD (n : ℕ) (A : Matrix (Fin n) (Fin n) ℚ) : IsSVD (idSVD n A) 1 := by
  refine ⟨?_, ?_, ?_, ?_⟩ <;> simp [idSVD]

/-- Instance of the delta identity: three time points, one voxel, `dt = 1`, `s = [4, -2, 7]`,
`SVD` answering `(I, I, I)`. -/
theorem SVDdeconv_delta_identity_witness :
    (0 : ℚ) < 1 ∧
    IsSVD (idSVD 3 ((1 : ℚ) • (1 : Matrix (Fin 3) (Fin 3) ℚ)))
      ((1 : ℚ) • (1 : Matrix (Fin 3) (Fin 3) ℚ)) ∧
    SVDdeconv (idSVD 3) ((1 : ℚ) • (Matrix.of ![![4], ![-2], ![7]])) (deltaAif 3 1) 1
      = Matrix.of ![![4], ![-2], ![7]] ∧
    ∀ k : Fin 3, truncate (idSVD 3 ((1 : ℚ) • (1 : Matrix (Fin 3) (Fin 3) ℚ))).S
      (fun k => ((idSVD 3 ((1 : ℚ) • (1 : Matrix (Fin 3) (Fin 3) ℚ))).S k)⁻¹) k = 1⁻¹ :=
  ⟨by norm_num, by rw [one_smul]; exact isSVD_idSVD 3 _,
    SVDdeconv_delta_identity (idSVD 3) 1 (by norm_num) _
      (by rw [one_smul]; exact isSVD_idSVD 3 _)⟩

/-! ### The removal loop of `SVDdeconv_wu` -/

/-- Invariants of the removal loop started in an arbitrary state. -/
theorem wuLoop_spec {n : ℕ} (o : SVDOut n α) (d : Fin n → α) (m : ℕ) :
    ∀ (i : ℕ) (D r : Fin n → α) (oi : FloatVal α) (z : List ℕ),
      (wuLoop o d m i D r oi z).i ≤ i ∧
      (1 ≤ i → 1 ≤ (wuLoop o d m i D r oi z).i) ∧
      (wuLoop o d m i D r oi z).zeroed
        = z ++ (List.range' ((wuLoop o d m i D r oi z).i + 1)
            (i - (wuLoop o d m i D r oi z).i)).reverse ∧
      (∀ k : Fin n, (wuLoop o d m i D r oi z).D k
        = if (wuLoop o d m i D r oi z).i < k.val + 1 ∧ k.val + 1 ≤ i then 0 else D k) ∧
      ((wuLoop o d m i D r oi z).oi.gt oi_thresh = false ∨ (wuLoop o d m i D r oi z).i ≤ 1) ∧
      (r = resolve o D d →
        (wuLoop o d m i D r oi z).resid = resolve o (wuLoop o d m i D r oi z).D d) := by
  intro i
  induction i with
  | zero =>
    intro D r oi z
    simp [wuLoop]
  | succ i ih =>
    intro D r oi z
    by_cases hg : (oi.gt oi_thresh && decide (i + 1 > 1)) = true
    · have hw : wuLoop o d m (i + 1) D r oi z
          = wuLoop o d m i (set1 D (i + 1) 0) (resolve o (set1 D (i + 1) 0) d)
              (oscIndex m (resolve o (set1 D (i + 1) 0) d)) (z ++ [i + 1]) := by
        rw [wuLoop, if_pos hg]
      rw [hw]
      obtain ⟨h1, h2, h3, h4, h5, h6⟩ := ih (set1 D (i + 1) 0) (resolve o (set1 D (i + 1) 0) d)
        (oscIndex m (resolve o (set1 D (i + 1) 0) d)) (z ++ [i + 1])
      have hi1 : 1 ≤ i := by
        simp at hg
        omega
      refine ⟨by omega, fun _ => h2 hi1, ?_, ?_, h5, fun _ => h6 rfl⟩
      · rw [h3]
        generalize (wuLoop o d m i (set1 D (i + 1) 0) (resolve o (set1 D (i + 1) 0) d)
          (oscIndex m (resolve o (set1 D (i + 1) 0) d)) (z ++ [i + 1])).i = j at h1 ⊢
        rw [show i + 1 - j = (i - j) + 1 by omega, List.range'_1_concat, List.reverse_append,
          List.append_assoc]
        simp
        omega
      · intro k
        rw [h4 k, set1_apply]
        generalize (wuLoop o d m i (set1 D (i + 1) 0) (resolve o (set1 D (i + 1) 0) d)
          (oscIndex m (resolve o (set1 D (i + 1) 0) d)) (z ++ [i + 1])).i = j at h1 ⊢
        by_cases ha : j < k.val + 1 ∧ k.val + 1 ≤ i
        · rw [if_pos ha, if_pos ⟨ha.1, by omega⟩]
        · rw [if_neg ha]
          by_cases hb : k.val + 1 = i + 1
          · rw [if_pos hb, if_pos ⟨by omega, by omega⟩]
          · rw [if_neg hb, if_neg]
            rintro ⟨h7, h8⟩
            exact ha ⟨h7, by omega⟩
    · have hw : wuLoop o d m (i + 1) D r oi z = ⟨i + 1, D, r, oi, z⟩ := by
        rw [wuLoop, if_neg hg]
      rw [hw]
      refine ⟨le_rfl, fun h => h, by simp, ?_, ?_, fun h => h⟩
      · intro k
        rw [if_neg]
        rintro ⟨h7, h8⟩
        simp only at h7
        omega
      · simp at hg
        by_cases hgt : oi.gt oi_thresh = true
        · right
          have := hg hgt
          simp only
          omega
        · left
          simpa using hgt

theorem gt_false_cases (x : FloatVal α) (t : α) (h : x.gt t = false) :
    x.le t = true ∨ x = FloatVal.nan := by
  cases x with
  | finite y =>
    left
    simp only [FloatVal.gt, decide_eq_false_iff_not, not_lt] at h
    simp [FloatVal.le, h]
  | posInf => simp [FloatVal.gt] at h
  | negInf => left; rfl
  | nan => right; rfl

/-- What the removal loop has done when it stops, for one voxel. -/
theorem wuVoxel_spec {n : ℕ} (o : SVDOut n α) (d : Fin n → α) (nti : ℕ) :
    (wuVoxel o d nti).zeroed
      = (List.range' ((wuVoxel o d nti).i + 1) (n - (wuVoxel o d nti).i)).reverse ∧
    (wuVoxel o d nti).zeroed.length ≤ n - 1 ∧
    (∀ j ∈ (wuVoxel o d nti).zeroed, 2 ≤ j ∧ j ≤ n) ∧
    (∀ k : Fin n, (wuVoxel o d nti).D k
      = if k.val + 1 ∈ (wuVoxel o d nti).zeroed then 0 else (o.S k)⁻¹) ∧
    ((wuVoxel o d nti).oi.le oi_thresh = true ∨ (wuVoxel o d nti).oi = FloatVal.nan ∨
      ∀ k : Fin n, 1 ≤ k.val → (wuVoxel o d nti).D k = 0) ∧
    (wuVoxel o d nti).resid = resolve o (wuVoxel o d nti).D d := by
  obtain ⟨h1, h2, h3, h4, h5, h6⟩ := wuLoop_spec o d n n (fun k => (o.S k)⁻¹)
    (resolve o (fun k => (o.S k)⁻¹) d) (oscIndex nti (resolve o (fun k => (o.S k)⁻¹) d)) []
  have hz : (wuVoxel o d nti).zeroed
      = (List.range' ((wuVoxel o d nti).i + 1) (n - (wuVoxel o d nti).i)).reverse := by
    simpa [wuVoxel] using h3
  have hmem : ∀ j, j ∈ (wuVoxel o d nti).zeroed ↔ (wuVoxel o d nti).i < j ∧ j ≤ n := by
    intro j
    rw [hz, List.mem_reverse, List.mem_range'_1]
    change (wuVoxel o d nti).i ≤ n at h1
    omega
  refine ⟨hz, ?_, ?_, ?_, ?_, h6 rfl⟩
  · rw [hz, List.length_reverse, List.length_range']
    change 1 ≤ n → 1 ≤ (wuVoxel o d nti).i at h2
    omega
  · intro j hj
    have := (hmem j).mp hj
    change 1 ≤ n → 1 ≤ (wuVoxel o d nti).i at h2
    omega
  · intro k
    have := h4 k
    change (wuVoxel o d nti).D k = _ at this
    rw [this]
    change (if (wuVoxel o d nti).i < k.val + 1 ∧ k.val + 1 ≤ n then (0 : α) else (o.S k)⁻¹) = _
    by_cases hk : (wuVoxel o d nti).i < k.val + 1 ∧ k.val + 1 ≤ n
    · rw [if_pos hk, if_pos ((hmem _).mpr hk)]
    · rw [if_neg hk, if_neg (fun h => hk ((hmem _).mp h))]
  · rcases h5 with h5 | h5
    · rcases gt_false_cases _ _ h5 with h7 | h7
      · exact Or.inl h7
      · exact Or.inr (Or.inl h7)
    · right; right
      intro k hk
      have := h4 k
      change (wuVoxel o d nti).D k = _ at this
      rw [this, if_pos]
      change (wuVoxel o d nti).i ≤ 1 at h5
      change (wuVoxel o d nti).i < k.val + 1 ∧ _
      have := k.isLt
      omega

/-- C3 as stated fails for a voxel whose data are all zero (three time points, unit-delta AIF,
`SVD` answering `(I, I, I)`): the first residue is zero, so the oscillation index is `∞·0`, not
a number; the guard `oi > 0.1` is false and the loop stops at once, with an index that is not
`≤ 0.1` and with every `D[k,k] = 1`. -/
theorem SVDdeconv_wu_stops_on_nan :
    (wuFinal (idSVD _) zeroData3 (deltaAif 3 1) 1 0).oi = FloatVal.nan ∧
    ¬ ((wuFinal (idSVD _) zeroData3 (deltaAif 3 1) 1 0).oi.le oi_thresh = true ∨
        ∀ k : Fin (3 + nextra 3), 1 ≤ k.val →
          (wuFinal (idSVD _) zeroData3 (deltaAif 3 1) 1 0).D k = 0) := by
  decide!

/-- C3, amended: for every input and voxel the removal loop of `SVDdeconv_wu` stops after at
most `N - 1` iterations (`N = T + nextra T`); the entries of `D` it sets to zero are, in this
order, `N, N-1, …, i+1` for the final value `i ≥ 1` of the loop variable, all of them `≥ 2`, so
`D[1,1]` is never zeroed and the other entries keep `1/S[k,k]`; when it stops the last
oscillation index is `≤ 0.1` or is not a number, or every `D[k,k]` with `k ≥ 2` is zero; and the
returned column is `V·D·Uᵀ·(data & padding)` for the final `D`. -/
theorem SVDdeconv_wu_removal_loop {T V : ℕ}
    (SVD : Matrix (Fin (T + nextra T)) (Fin (T + nextra T)) α → SVDOut (T + nextra T) α)
    (data aif : Matrix (Fin T) (Fin V) α) (dt : α) (v : Fin V) :
    (wuFinal SVD data aif dt v).zeroed
      = (List.range' ((wuFinal SVD data aif dt v).i + 1)
          (T + nextra T - (wuFinal SVD data aif dt v).i)).reverse ∧
    (wuFinal SVD data aif dt v).zeroed.length ≤ T + nextra T - 1 ∧
    (∀ j ∈ (wuFinal SVD data aif dt v).zeroed, 2 ≤ j ∧ j ≤ T + nextra T) ∧
    (∀ k : Fin (T + nextra T), (wuFinal SVD data aif dt v).D k
      = if k.val + 1 ∈ (wuFinal SVD data aif dt v).zeroed then 0
        else ((SVD (dt • convmtx_circular (padCol (Column aif v) (nextra T)))).S k)⁻¹) ∧
    ((wuFinal SVD data aif dt v).oi.le oi_thresh = true ∨
      (wuFinal SVD data aif dt v).oi = FloatVal.nan ∨
      ∀ k : Fin (T + nextra T), 1 ≤ k.val → (wuFinal SVD data aif dt v).D k = 0) ∧
    Column (SVDdeconv_wu SVD data aif dt) v
      = resolve (SVD (dt • convmtx_circular (padCol (Column aif v) (nextra T))))
          (wuFinal SVD data aif dt v).D (padCol (Column data v) (nextra T)) := by
  obtain ⟨h1, h2, h3, h4, h5, h6⟩ :=
    wuVoxel_spec (SVD (dt • convmtx_circular (padCol (Column aif v) (nextra T))))
      (padCol (Column data v) (nextra T)) T
  exact ⟨h1, h2, h3, h4, h5, h6⟩

/-! ### Scaling of the data -/

theorem ofFn_smul {n : ℕ} (k : α) (r : Fin n → α) :
    List.ofFn (k • r) = (List.ofFn r).map (k * ·) := by
  rw [List.map_ofFn]
  rfl

theorem foldl_max_smul (k : α) (hk : 0 ≤ k) (xs : List α) :
    ∀ x : α, (xs.map (k * ·)).foldl max (k * x) = k * xs.foldl max x := by
  induction xs with
  | nil => intro x; rfl
  | cons y ys ih =>
    intro x
    simp only [List.map_cons, List.foldl_cons]
    rw [← mul_max_of_nonneg _ _ hk, ih]

theorem listMax_smul (k : α) (hk : 0 ≤ k) (l : List α) :
    listMax (l.map (k * ·)) = k * listMax l := by
  cases l with
  | nil => simp [listMax]
  | cons x xs => simp only [List.map_cons, listMax]; exact foldl_max_smul k hk xs x

theorem Maximum_smul {n : ℕ} (k : α) (hk : 0 ≤ k) (r : Fin n → α) :
    Maximum (k • r) = k * Maximum r := by
  unfold Maximum
  rw [ofFn_smul, listMax_smul k hk]

theorem Rows_smul {n : ℕ} (k : α) (r : Fin n → α) (a b : ℕ) :
    Rows (k • r) a b = (Rows r a b).map (k * ·) := by
  unfold Rows
  rw [ofFn_smul, List.map_take, List.map_drop]

theorem zipWith_map_both (f : α → α → α) (g : α → α) (hfg : ∀ a b, f (g a) (g b) = g (f a b)) :
    ∀ l1 l2 : List α, List.zipWith f (l1.map g) (l2.map g) = (List.zipWith f l1 l2).map g := by
  intro l1
  induction l1 with
  | nil => intro l2; simp
  | cons x xs ih =>
    intro l2
    cases l2 with
    | nil => simp
    | cons y ys => simp [hfg, ih]

theorem secondDiff_smul {n : ℕ} (k : α) (r : Fin n → α) :
    secondDiff (k • r) = (secondDiff r).map (k * ·) := by
  unfold secondDiff
  rw [Rows_smul, Rows_smul, Rows_smul]
  have h2 : (List.map (k * ·) (Rows r 2 (n - 1))).map (2 * ·)
      = ((Rows r 2 (n - 1)).map (2 * ·)).map (k * ·) := by
    simp only [List.map_map]
    congr 1
    funext x
    simp only [Function.comp]
    ring
  rw [h2, zipWith_map_both (· - ·) (k * ·) (fun a b => by ring),
    zipWith_map_both (· + ·) (k * ·) (fun a b => by ring)]

theorem SumAbsoluteValue_smul (k : α) (hk : 0 ≤ k) (l : List α) :
    SumAbsoluteValue (l.map (k * ·)) = k * SumAbsoluteValue l := by
  unfold SumAbsoluteValue
  rw [List.map_map, ← List.sum_map_mul_left]
  congr 1
  apply List.map_congr_left
  intro x _
  simp [abs_mul, abs_of_nonneg hk]

theorem recipMul_scale (k den x : α) (hk : 0 < k) :
    recipMul (k * den) (k * x) = recipMul den x := by
  unfold recipMul
  have hk0 : k ≠ 0 := ne_of_gt hk
  by_cases hd : den = 0
  · subst hd
    simp only [mul_zero, if_true]
    by_cases hx : x = 0
    · subst hx; simp
    · rw [if_neg (mul_ne_zero hk0 hx), if_neg hx]
      by_cases hp : 0 < x
      · rw [if_pos hp, if_pos (mul_pos hk hp)]
      · rw [if_neg hp, if_neg]
        intro h
        exact hp (pos_of_mul_pos_right h (le_of_lt hk))
  · rw [if_neg (mul_ne_zero hk0 hd), if_neg hd]
    congr 1
    field_simp
    ring

theorem oscIndex_smul {n : ℕ} (m : ℕ) (k : α) (hk : 0 < k) (r : Fin n → α) :
    oscIndex m (k • r) = oscIndex m r := by
  unfold oscIndex
  rw [Maximum_smul k (le_of_lt hk), secondDiff_smul, SumAbsoluteValue_smul k (le_of_lt hk),
    show (m : α) * (k * Maximum r) = k * ((m : α) * Maximum r) by ring, recipMul_scale _ _ _ hk]

theorem resolve_smul {n : ℕ} (o : SVDOut n α) (D : Fin n → α) (k : α) (d : Fin n → α) :
    resolve o D (k • d) = k • resolve o D d := by
  unfold resolve
  rw [Matrix.mulVec_smul]

theorem wuLoop_smul {n : ℕ} (o : SVDOut n α) (d : Fin n → α) (m : ℕ) (k : α) (hk : 0 < k) :
    ∀ (i : ℕ) (D r : Fin n → α) (oi : FloatVal α) (z : List ℕ),
      (wuLoop o (k • d) m i D (k • r) oi z).resid = k • (wuLoop o d m i D r oi z).resid := by
  intro i
  induction i with
  | zero => intro D r oi z; simp [wuLoop]
  | succ i ih =>
    intro D r oi z
    by_cases hg : (oi.gt oi_thresh && decide (i + 1 > 1)) = true
    · rw [wuLoop, wuLoop, if_pos hg, if_pos hg]
      simp only
      rw [resolve_smul, oscIndex_smul m k hk]
      exact ih _ _ _ _
    · rw [wuLoop, wuLoop, if_neg hg, if_neg hg]

theorem wuLoop_stop {n : ℕ} (o : SVDOut n α) (d : Fin n → α) (m : ℕ) (i : ℕ)
    (D r : Fin n → α) (oi : FloatVal α) (z : List ℕ) (h : oi.gt oi_thresh = false) :
    wuLoop o d m i D r oi z = ⟨i, D, r, oi, z⟩ := by
  cases i with
  | zero => rfl
  | succ i => rw [wuLoop, if_neg (by simp [h])]

theorem oscIndex_zero {n : ℕ} (m : ℕ) : oscIndex m (0 : Fin n → α) = FloatVal.nan := by
  have h0 : (0 : Fin n → α) = (0 : α) • (0 : Fin n → α) := by simp
  rw [h0]
  unfold oscIndex
  rw [Maximum_smul 0 le_rfl, secondDiff_smul, SumAbsoluteValue_smul 0 le_rfl]
  simp [recipMul]

theorem wuVoxel_smul {n : ℕ} (o : SVDOut n α) (d : Fin n → α) (nti : ℕ) (k : α) (hk : 0 ≤ k) :
    (wuVoxel o (k • d) nti).resid = k • (wuVoxel o d nti).resid := by
  rcases eq_or_lt_of_le hk with h0 | hpos
  · subst h0
    unfold wuVoxel
    simp only [zero_smul]
    have hr : resolve o (fun k => (o.S k)⁻¹) (0 : Fin n → α) = 0 := by
      unfold resolve
      rw [Matrix.mulVec_zero]
    rw [hr, oscIndex_zero, wuLoop_stop _ _ _ _ _ _ FloatVal.nan _ rfl]
  · unfold wuVoxel
    simp only
    rw [resolve_smul, oscIndex_smul nti k hpos]
    exact wuLoop_smul o d n k hpos _ _ _ _ _

theorem padCol_smul {T : ℕ} (k : α) (x : Fin T → α) (P : ℕ) :
    padCol (k • x) P = k • padCol x P := by
  funext i
  unfold padCol
  by_cases h : i.val < T <;> simp [h]

theorem SVDdeconv_wu_smul {T V : ℕ}
    (SVD : Matrix (Fin (T + nextra T)) (Fin (T + nextra T)) α → SVDOut (T + nextra T) α)
    (data aif : Matrix (Fin T) (Fin V) α) (dt k : α) (hk : 0 ≤ k) :
    SVDdeconv_wu SVD (k • data) aif dt = k • SVDdeconv_wu SVD data aif dt := by
  ext t v
  simp only [SVDdeconv_wu, wuFinal, Matrix.of_apply, Matrix.smul_apply]
  have hc : Column (k • data) v = k • Column data v := rfl
  rw [hc, padCol_smul, wuVoxel_smul _ _ _ k hk]
  rfl

/-- C4, amended: for every data, aif, dt and every scalar `k ≥ 0`, the un-normalised residue
that `SVDdeconv_wu` computes from `k·data` is `k` times the residue it computes from `data`, and
the magnitude `mag[v]` that `Deconv` extracts from `k·data` is `k` times the magnitude it
extracts from `data`, for every voxel. -/
theorem SVDdeconv_wu_scaling {T V : ℕ}
    (SVD : Matrix (Fin (T + nextra T)) (Fin (T + nextra T)) α → SVDOut (T + nextra T) α)
    (data aif : Matrix (Fin T) (Fin V) α) (dt k : α) (hk : 0 ≤ k) :
    SVDdeconv_wu SVD (k • data) aif dt = k • SVDdeconv_wu SVD data aif dt ∧
    ∀ v : Fin V, (Deconv SVD (k • data) aif dt).mag v = k * (Deconv SVD data aif dt).mag v := by
  refine ⟨SVDdeconv_wu_smul SVD data aif dt k hk, fun v => ?_⟩
  simp only [Deconv]
  rw [SVDdeconv_wu_smul SVD data aif dt k hk]
  exact Maximum_smul k hk _

/-- The triple `(U8, S8, V8)` is a valid decomposition of the padded circulant matrix of `a8`. -/
theorem isSVD_svd8 :
    IsSVD (svd8 ((1 : ℚ) • convmtx_circular (padCol (Column a8 0) (nextra 4))))
      ((1 : ℚ) • convmtx_circular (padCol (Column a8 0) (nextra 4))) := by
  unfold IsSVD
  decide!

/-- C4 as stated fails at `k = -1` for one voxel with `data = [37, 37, 9, 9]`,
`aif = [0, 3, 0, -4]`, `dt = 1` and the valid decomposition `(U8, S8, V8)`: the residue of
`data` is `[-9, -9, -9, -12, -12, -16, -16, -9]` (oscillation index negative, nothing removed,
`mag = -9`), the residue of `-data` is `[-1, 0, 1, 0, -1, 0, 1, 0]` (all but the leading
singular value removed, `mag = 1`). -/
theorem SVDdeconv_wu_negative_scaling :
    IsSVD (svd8 ((1 : ℚ) • convmtx_circular (padCol (Column a8 0) (nextra 4))))
      ((1 : ℚ) • convmtx_circular (padCol (Column a8 0) (nextra 4))) ∧
    SVDdeconv_wu svd8 ((-1 : ℚ) • d8) a8 1 ≠ (-1 : ℚ) • SVDdeconv_wu svd8 d8 a8 1 ∧
    (Deconv svd8 ((-1 : ℚ) • d8) a8 1).mag 0 ≠ (-1) * (Deconv svd8 d8 a8 1).mag 0 :=
  ⟨isSVD_svd8, by decide!⟩

/-- Instance of the scaling law at `k = 2` for the data `d8` and the AIF `a8`. -/
theorem SVDdeconv_wu_scaling_witness :
    (0 : ℚ) ≤ 2 ∧
    SVDdeconv_wu svd8 ((2 : ℚ) • d8) a8 1 = (2 : ℚ) • SVDdeconv_wu svd8 d8 a8 1 ∧
    ∀ v : Fin 1, (Deconv svd8 ((2 : ℚ) • d8) a8 1).mag v = 2 * (Deconv svd8 d8 a8 1).mag v :=
  ⟨by norm_num, SVDdeconv_wu_scaling svd8 d8 a8 1 2 (by norm_num)⟩

/-! ### `Deconv`: magnitude and normalisation -/

theorem foldl_max_ge (xs : List α) : ∀ x : α, x ≤ xs.foldl max x ∧ ∀ y ∈ xs, y ≤ xs.foldl max x := by
  induction xs with
  | nil => intro x; simp
  | cons a as ih =>
    intro x
    simp only [List.foldl_cons, List.mem_cons]
    obtain ⟨h1, h2⟩ := ih (max x a)
    refine ⟨le_trans (le_max_left _ _) h1, ?_⟩
    rintro y (rfl | hy)
    · exact le_trans (le_max_right _ _) h1
    · exact h2 y hy

theorem foldl_max_mem (xs : List α) : ∀ x : α, xs.foldl max x = x ∨ xs.foldl max x ∈ xs := by
  induction xs with
  | nil => intro x; simp
  | cons a as ih =>
    intro x
    simp only [List.foldl_cons, List.mem_cons]
    rcases ih (max x a) with h | h
    · rcases max_choice x a with h2 | h2
      · left; rw [h, h2]
      · right; left; rw [h, h2]
    · right; right; exact h

theorem Maximum_ge {n : ℕ} (r : Fin n → α) (t : Fin n) : r t ≤ Maximum r := by
  unfold Maximum
  have hmem : r t ∈ List.ofFn r := (List.mem_ofFn _ _).mpr ⟨t, rfl⟩
  cases h : List.ofFn r with
  | nil => rw [h] at hmem; simp at hmem
  | cons x xs =>
    rw [h] at hmem
    simp only [listMax]
    rcases List.mem_cons.mp hmem with h1 | h1
    · rw [h1]; exact (foldl_max_ge xs x).1
    · exact (foldl_max_ge xs x).2 _ h1

theorem Maximum_mem {n : ℕ} (r : Fin n → α) (hn : 0 < n) : ∃ t : Fin n, Maximum r = r t := by
  unfold Maximum
  cases h : List.ofFn r with
  | nil =>
    have := congrArg List.length h
    simp at this
    omega
  | cons x xs =>
    simp only [listMax]
    have hx : x ∈ List.ofFn r := by rw [h]; simp
    rcases foldl_max_mem xs x with h1 | h1
    · obtain ⟨t, ht⟩ := (List.mem_ofFn _ _).mp hx
      exact ⟨t, by rw [h1, ht]⟩
    · have h2 : xs.foldl max x ∈ List.ofFn r := by rw [h]; exact List.mem_cons_of_mem _ h1
      obtain ⟨t, ht⟩ := (List.mem_ofFn _ _).mp h2
      exact ⟨t, ht.symm⟩

/-- C6 as stated fails for one voxel with `data = [37, 37, 9, 9]`, `aif = [0, 3, 0, -4]`,
`dt = 1` and the valid decomposition `(U8, S8, V8)`: the residue column is
`[-9, -9, -9, -12, -12, -16, -16, -9]`, its oscillation index is negative, no singular value is
removed, and `mag = -9 < 0`. -/
theorem Deconv_mag_negative :
    IsSVD (svd8 ((1 : ℚ) • convmtx_circular (padCol (Column a8 0) (nextra 4))))
      ((1 : ℚ) • convmtx_circular (padCol (Column a8 0) (nextra 4))) ∧
    (Deconv svd8 d8 a8 1).mag 0 = -9 ∧ ¬ (0 ≤ (Deconv svd8 d8 a8 1).mag 0) :=
  ⟨isSVD_svd8, by decide!⟩

/-- C6, amended: for every input of `Deconv` with at least one time point and every voxel `v`,
`mag[v]` is the maximum over `t` of the un-normalised residue column (an upper bound of the
column that is attained in it); it is non-negative exactly when the column has a non-negative
entry, and is negative otherwise. -/
theorem Deconv_mag_is_maximum {T V : ℕ}
    (SVD : Matrix (Fin (T + nextra T)) (Fin (T + nextra T)) α → SVDOut (T + nextra T) α)
    (data aif : Matrix (Fin T) (Fin V) α) (dt : α) (v : Fin V) (hT : 0 < T) :
    (∀ t, SVDdeconv_wu SVD data aif dt t v ≤ (Deconv SVD data aif dt).mag v) ∧
    (∃ t, (Deconv SVD data aif dt).mag v = SVDdeconv_wu SVD data aif dt t v) ∧
    (0 ≤ (Deconv SVD data aif dt).mag v ↔ ∃ t, 0 ≤ SVDdeconv_wu SVD data aif dt t v) := by
  have hge : ∀ t, SVDdeconv_wu SVD data aif dt t v ≤ (Deconv SVD data aif dt).mag v :=
    fun t => Maximum_ge (Column (SVDdeconv_wu SVD data aif dt) v) t
  have hmem : ∃ t, (Deconv SVD data aif dt).mag v = SVDdeconv_wu SVD data aif dt t v :=
    Maximum_mem (Column (SVDdeconv_wu SVD data aif dt) v) (by omega)
  refine ⟨hge, hmem, ?_⟩
  constructor
  · intro h
    obtain ⟨t, ht⟩ := hmem
    exact ⟨t, by rw [← ht]; exact h⟩
  · rintro ⟨t, ht⟩
    exact le_trans ht (hge t)

/-- Instance of the maximum property for the data `d8` and the AIF `a8` (four time points). -/
theorem Deconv_mag_is_maximum_witness :
    0 < 4 ∧
    (∀ t, SVDdeconv_wu svd8 d8 a8 1 t 0 ≤ (Deconv svd8 d8 a8 1).mag 0) ∧
    (∃ t, (Deconv svd8 d8 a8 1).mag 0 = SVDdeconv_wu svd8 d8 a8 1 t 0) ∧
    (0 ≤ (Deconv svd8 d8 a8 1).mag 0 ↔ ∃ t, 0 ≤ SVDdeconv_wu svd8 d8 a8 1 t 0) :=
  ⟨by decide, Deconv_mag_is_maximum svd8 d8 a8 1 0 (by decide)⟩

/-- C7 as stated fails for a voxel whose data are all zero (three time points, unit-delta AIF,
`SVD` answering `(I, I, I)`): `Deconv` returns `mag = 0` and a residue column whose entries are
all `0 · (1/0)`, not a number; no error is reported. -/
theorem Deconv_zero_mag_returns_nan :
    (Deconv (idSVD _) zeroData3 (deltaAif 3 1) 1).mag 0 = 0 ∧
    ∀ t, (Deconv (idSVD _) zeroData3 (deltaAif 3 1) 1).resid t 0 = FloatVal.nan := by
  decide!

/-- C7, amended: for every input of `Deconv` and every voxel `v` with `mag[v] = 0`, `Deconv`
reports no error and returns the residue column multiplied by `1/0`: an entry is not a number
where the un-normalised residue is `0` and `-∞` where it is negative. -/
theorem Deconv_zero_mag_nonfinite {T V : ℕ}
    (SVD : Matrix (Fin (T + nextra T)) (Fin (T + nextra T)) α → SVDOut (T + nextra T) α)
    (data aif : Matrix (Fin T) (Fin V) α) (dt : α) (v : Fin V)
    (h0 : (Deconv SVD data aif dt).mag v = 0) :
    ∀ t, (Deconv SVD data aif dt).resid t v =
      if SVDdeconv_wu SVD data aif dt t v = 0 then FloatVal.nan else FloatVal.negInf := by
  intro t
  have hle : SVDdeconv_wu SVD data aif dt t v ≤ 0 := by
    rw [← h0]
    exact Maximum_ge (Column (SVDdeconv_wu SVD data aif dt) v) t
  have hr : (Deconv SVD data aif dt).resid t v
      = recipMul ((Deconv SVD data aif dt).mag v) (SVDdeconv_wu SVD data aif dt t v) := rfl
  rw [hr, h0]
  unfold recipMul
  rw [if_pos rfl]
  by_cases hz : SVDdeconv_wu SVD data aif dt t v = 0
  · rw [if_pos hz, if_pos hz]
  · rw [if_neg hz, if_neg hz, if_neg (not_lt.mpr hle)]

/-- Instance of the zero-magnitude behaviour: an all-zero data column of three time points. -/
theorem Deconv_zero_mag_nonfinite_witness :
    (Deconv (idSVD _) zeroData3 (deltaAif 3 1) 1).mag 0 = 0 ∧
    ∀ t, (Deconv (idSVD _) zeroData3 (deltaAif 3 1) 1).resid t 0 =
      if SVDdeconv_wu (idSVD _) zeroData3 (deltaAif 3 1) 1 t 0 = 0 then FloatVal.nan
      else FloatVal.negInf :=
  ⟨by decide!, Deconv_zero_mag_nonfinite (idSVD _) zeroData3 (deltaAif 3 1) 1 0 (by decide!)⟩

/-! ### Scenario S1 -/

theorem ofFn_padCol {T : ℕ} (x : Fin T → α) (P : ℕ) :
    List.ofFn (padCol x P) = List.ofFn x ++ List.replicate P 0 := by
  apply List.ext_getElem
  · simp
  · intro i h1 h2
    simp only [List.getElem_ofFn, padCol]
    by_cases h : i < T
    · rw [dif_pos h, List.getElem_append_left (by simpa using h)]
      simp
    · rw [dif_neg h, List.getElem_append_right (by simpa using h)]
      simp

theorem convmtx_circular_padded_delta (T V P : ℕ) (hT : 0 < T) (v : Fin V) :
    convmtx_circular (padCol (Column (deltaAif T V : Matrix (Fin T) (Fin V) α) v) P) = 1 := by
  ext r c
  rw [convmtx_circular_apply, Matrix.one_apply]
  have hr := r.isLt
  have hc := c.isLt
  have hv : ∀ j, j < T + P →
      vget (padCol (Column (deltaAif T V : Matrix (Fin T) (Fin V) α) v) P) j
        = if j = 0 then 1 else 0 := by
    intro j hj
    rw [vget_eq _ _ hj]
    simp only [padCol, Column, deltaAif, Matrix.of_apply]
    by_cases h : j < T
    · rw [dif_pos h]
    · rw [dif_neg h, if_neg (by omega)]
  by_cases h : c.val ≤ r.val
  · rw [if_pos h, hv _ (by omega)]
    by_cases h2 : r = c
    · subst h2; simp
    · rw [if_neg h2, if_neg]
      intro h3
      exact h2 (Fin.ext (by omega))
  · rw [if_neg h, hv _ (by omega), if_neg (by omega), if_neg]
    intro h2
    subst h2
    exact h le_rfl

theorem S1_list :
    List.ofFn (padCol (Column (dataS1 : Matrix (Fin 5) (Fin 1) α) 0) (nextra 5))
      = [1 / 2, 1 / 4, 1 / 8, 1 / 16, 1 / 32, 0, 0, 0, 0, 0, 0] := by
  rw [ofFn_padCol]
  simp [Column, dataS1, nextra, List.ofFn_succ, List.replicate]

theorem S1_max : listMax ([1 / 2, 1 / 4, 1 / 8, 1 / 16, 1 / 32, 0, 0, 0, 0, 0, 0] : List α) = 1 / 2 := by
  simp only [listMax, List.foldl_cons, List.foldl_nil]
  rw [max_eq_left (by norm_num), max_eq_left (by norm_num), max_eq_left (by norm_num),
    max_eq_left (by norm_num), max_eq_left (by norm_num), max_eq_left (by norm_num),
    max_eq_left (by norm_num), max_eq_left (by norm_num), max_eq_left (by norm_num),
    max_eq_left (by norm_num)]

theorem S1_sumabs : SumAbsoluteValue
    (List.zipWith (· + ·)
      (List.zipWith (· - ·)
        ((([1 / 2, 1 / 4, 1 / 8, 1 / 16, 1 / 32, 0, 0, 0, 0, 0, 0] : List α).drop 2).take 9)
        (((([1 / 2, 1 / 4, 1 / 8, 1 / 16, 1 / 32, 0, 0, 0, 0, 0, 0] : List α).drop 1).take 9).map
          (2 * ·)))
      ((([1 / 2, 1 / 4, 1 / 8, 1 / 16, 1 / 32, 0, 0, 0, 0, 0, 0] : List α).drop 0).take 9))
    = 1 / 4 := by
  simp only [List.drop_succ_cons, List.drop_zero, List.take_succ_cons, List.take_zero,
    List.map_cons, List.map_nil, List.zipWith_cons_cons, List.zipWith_nil_left,
    List.zipWith_nil_right, SumAbsoluteValue, List.sum_cons, List.sum_nil]
  rw [abs_of_nonneg (by norm_num : (0 : α) ≤ 1 / 8 - 2 * (1 / 4) + 1 / 2),
    abs_of_nonneg (by norm_num : (0 : α) ≤ 1 / 16 - 2 * (1 / 8) + 1 / 4),
    abs_of_nonneg (by norm_num : (0 : α) ≤ 1 / 32 - 2 * (1 / 16) + 1 / 8),
    abs_of_nonneg (by norm_num : (0 : α) ≤ 0 - 2 * (1 / 32) + 1 / 16),
    abs_of_nonneg (by norm_num : (0 : α) ≤ 0 - 2 * 0 + 1 / 32),
    abs_of_nonneg (by norm_num : (0 : α) ≤ 0 - 2 * 0 + 0)]
  norm_num

theorem S1_oscIndex :
    oscIndex 5 (padCol (Column (dataS1 : Matrix (Fin 5) (Fin 1) α) 0) (nextra 5))
      = FloatVal.finite (1 / 10) := by
  unfold oscIndex Maximum secondDiff Rows
  rw [S1_list, S1_max]
  have hn : 5 + nextra 5 = 11 := rfl
  simp only [hn]
  have e1 : 11 + 1 - 3 = 9 := rfl
  have e4 : 3 - 1 = 2 := rfl
  have e5 : 2 - 1 = 1 := rfl
  have e6 : 1 - 1 = 0 := rfl
  rw [e1, e4, e5, e6, S1_sumabs]
  unfold recipMul
  rw [if_neg (by norm_num)]
  congr 1
  norm_num

theorem S1_residue (SVD : Matrix (Fin (5 + nextra 5)) (Fin (5 + nextra 5)) α → SVDOut (5 + nextra 5) α)
    (hsvd : IsSVD (SVD 1) 1) :
    Column (SVDdeconv_wu SVD dataS1 (deltaAif 5 1) 1) 0
      = padCol (Column (dataS1 : Matrix (Fin 5) (Fin 1) α) 0) (nextra 5) := by
  have hM : (1 : α) • convmtx_circular
      (padCol (Column (deltaAif 5 1 : Matrix (Fin 5) (Fin 1) α) 0) (nextra 5)) = 1 := by
    rw [one_smul, convmtx_circular_padded_delta 5 1 _ (by norm_num) 0]
  obtain ⟨hS, hVU⟩ := isSVD_smul_one (SVD 1) 1 one_pos (by rw [one_smul]; exact hsvd)
  have hD : (fun k => ((SVD 1).S k)⁻¹) = fun _ => (1 : α)⁻¹ := funext (fun k => by rw [hS])
  funext t
  simp only [Column, SVDdeconv_wu, Matrix.of_apply, wuFinal]
  rw [hM]
  unfold wuVoxel
  simp only
  rw [hD, resolve_const _ _ hVU]
  simp only [inv_one, one_smul]
  have := S1_oscIndex (α := α)
  simp only [Column] at this
  rw [this, wuLoop_stop _ _ _ _ _ _ _ _ (by simp [FloatVal.gt, oi_thresh])]

/-- C5 (scenario S1): with `dt = 1`, one voxel, `aif = [1,0,0,0,0]` and
`data = [0.5, 0.25, 0.125, 0.0625, 0.03125]`, for whatever valid decomposition `SVD` returns for
the 11×11 identity, `Deconv` returns `mag = 0.5`, the un-normalised residue equals the data on
the first five samples, and the normalised residue there is `[1, 0.5, 0.25, 0.125, 0.0625]`.
The first oscillation index is exactly `0.1`, which is not above the threshold. -/
theorem Deconv_scenario_S1
    (SVD : Matrix (Fin (5 + nextra 5)) (Fin (5 + nextra 5)) α → SVDOut (5 + nextra 5) α)
    (hsvd : IsSVD (SVD 1) 1) :
    (Deconv SVD dataS1 (deltaAif 5 1) 1).mag 0 = 1 / 2 ∧
    (∀ t : Fin 5, SVDdeconv_wu SVD dataS1 (deltaAif 5 1) 1 (Fin.castAdd (nextra 5) t) 0
      = dataS1 t 0) ∧
    (∀ t : Fin 5, (Deconv SVD dataS1 (deltaAif 5 1) 1).resid (Fin.castAdd (nextra 5) t) 0
      = FloatVal.finite (normS1 t)) := by
  have hres := S1_residue SVD hsvd
  have hmag : (Deconv SVD dataS1 (deltaAif 5 1) 1).mag 0 = 1 / 2 := by
    simp only [Deconv]
    rw [hres]
    unfold Maximum
    rw [S1_list, S1_max]
  have hun : ∀ t : Fin 5, SVDdeconv_wu SVD dataS1 (deltaAif 5 1) 1 (Fin.castAdd (nextra 5) t) 0
      = dataS1 t 0 := by
    intro t
    have := congrFun hres (Fin.castAdd (nextra 5) t)
    simp only [Column] at this
    rw [this]
    simp [padCol, Column]
  refine ⟨hmag, hun, ?_⟩
  intro t
  have hr : (Deconv SVD dataS1 (deltaAif 5 1) 1).resid (Fin.castAdd (nextra 5) t) 0
      = recipMul ((Deconv SVD dataS1 (deltaAif 5 1) 1).mag 0)
          (SVDdeconv_wu SVD dataS1 (deltaAif 5 1) 1 (Fin.castAdd (nextra 5) t) 0) := rfl
  rw [hr, hmag, hun]
  unfold recipMul
  rw [if_neg (by norm_num)]
  congr 1
  fin_cases t <;> norm_num [dataS1, normS1]

/-- Instance of scenario S1 over `ℚ` with `SVD` answering `(I, I, I)`. -/
theorem Deconv_scenario_S1_witness :
    IsSVD (idSVD (5 + nextra 5) 1) 1 ∧
    (Deconv (idSVD _) dataS1 (deltaAif 5 1) 1).mag 0 = 1 / 2 ∧
    (∀ t : Fin 5, SVDdeconv_wu (idSVD _) dataS1 (deltaAif 5 1) 1 (Fin.castAdd (nextra 5) t) 0
      = dataS1 t 0) ∧
    (∀ t : Fin 5, (Deconv (idSVD _) dataS1 (deltaAif 5 1) 1).resid (Fin.castAdd (nextra 5) t) 0
      = FloatVal.finite (normS1 t)) :=
  ⟨isSVD_idSVD _ _, Deconv_scenario_S1 (idSVD _) (isSVD_idSVD _ _)⟩

/-! ### Zero padding and the bootstrap data -/

theorem vget_padCol {T : ℕ} (a : Fin T → α) (P k : ℕ) : vget (padCol a P) k = vget a k := by
  unfold vget padCol
  by_cases h : k < T
  · rw [dif_pos (by omega), dif_pos h]
  · by_cases h2 : k < T + P
    · rw [dif_pos h2, dif_neg h]
    · rw [dif_neg h2, dif_neg h]

theorem convmtx_circular_padded_entry {T : ℕ} (a : Fin T → α) (P : ℕ) (hP : T ≤ P + 1)
    (i j : Fin T) :
    convmtx_circular (padCol a P) (Fin.castAdd P i) (Fin.castAdd P j) = convmtx a i j := by
  rw [convmtx_circular_apply, convmtx_apply, vget_padCol, vget_padCol]
  have hi := i.isLt
  have hj := j.isLt
  simp only [Fin.coe_castAdd]
  by_cases h : j.val ≤ i.val
  · rw [if_pos h, if_pos h]
  · rw [if_neg h, if_neg h]
    unfold vget
    rw [dif_neg (by omega)]

theorem padded_circular_mulVec {T : ℕ} (a r : Fin T → α) (P : ℕ) (hP : T ≤ P + 1) (i : Fin T) :
    (convmtx_circular (padCol a P)).mulVec (padCol r P) (Fin.castAdd P i)
      = (convmtx a).mulVec r i := by
  simp only [Matrix.mulVec, Matrix.dotProduct]
  rw [Fin.sum_univ_add]
  have h2 : ∑ j : Fin P, convmtx_circular (padCol a P) (Fin.castAdd P i) (Fin.natAdd T j)
      * padCol r P (Fin.natAdd T j) = 0 := by
    apply Finset.sum_eq_zero
    intro j _
    simp [padCol]
  rw [h2, add_zero]
  apply Finset.sum_congr rfl
  intro j _
  rw [convmtx_circular_padded_entry a P hP]
  simp [padCol]

theorem nextra_ge (T : ℕ) : T ≤ nextra T + 1 := by
  unfold nextra
  omega

/-- C19: for every `T`, all vectors `a` and `r` of length `T` and every `P ≥ T - 1`, the first
`T` entries of `convmtx_circular (a & zeros) · (r & zeros)` equal `convmtx a · r`; the padding
`P = nextra T = ⌊1.2·T⌋` used by `SVDdeconv_circular`, `SVDdeconv_wu` and `BootStrap` is such a
`P`. -/
theorem zero_padding_reproduces_causal {T : ℕ} (a r : Fin T → α) (P : ℕ) (hP : T ≤ P + 1) :
    (∀ i : Fin T, (convmtx_circular (padCol a P)).mulVec (padCol r P) (Fin.castAdd P i)
      = (convmtx a).mulVec r i) ∧
    T ≤ nextra T + 1 :=
  ⟨fun i => padded_circular_mulVec a r P hP i, nextra_ge T⟩

/-- Instance of C19: `T = 3`, `P = nextra 3 = 3`, `a = [1, 2, 3]`, `r = [4, 5, 6]`. -/
theorem zero_padding_reproduces_causal_witness :
    3 ≤ nextra 3 + 1 ∧
    (∀ i : Fin 3, (convmtx_circular (padCol (![1, 2, 3] : Fin 3 → ℚ) (nextra 3))).mulVec
        (padCol ![4, 5, 6] (nextra 3)) (Fin.castAdd (nextra 3) i)
      = (convmtx ![1, 2, 3]).mulVec ![4, 5, 6] i) ∧
    3 ≤ nextra 3 + 1 :=
  ⟨by decide, zero_padding_reproduces_causal _ _ _ (by decide)⟩

theorem Radevec_cases (RAND_MAX : ℕ) (rand : ℕ → ℕ) (T b : ℕ) (t : Fin T) :
    (Radevec RAND_MAX rand T b t : α) = 1 ∨ (Radevec RAND_MAX rand T b t : α) = -1 := by
  unfold Radevec
  by_cases h : rand ((b - 1) * T + t.val) > RAND_MAX / 2
  · right; rw [if_pos h]
  · left; rw [if_neg h]

/-- C11: in `BootStrap`, for every replicate `b`, time point `t` and voxel `v`,
`WBdata[t,v] = modelfit[t,v] + R[t]·(data[t,v] - modelfit[t,v])`, where `modelfit[:,v]` is the
first `T` rows of `dt·convmtx_circular(aif[:,v] & zeros)·resid[:,v]` (it does not depend on the
replicate) and `R = Radevec` takes the values `±1` and does not depend on the voxel; so
`WBdata[t,v] = data[t,v]` where `R[t] = 1` and `2·modelfit[t,v] - data[t,v]` where
`R[t] = -1`. -/
theorem BootStrap_WBdata_spec {T P V : ℕ} (RAND_MAX : ℕ) (rand : ℕ → ℕ)
    (aif data : Matrix (Fin T) (Fin V) α) (resid : Matrix (Fin (T + P)) (Fin V) α) (dt : α)
    (b : ℕ) (t : Fin T) (v : Fin V) :
    BootStrap_WBdata RAND_MAX rand aif data resid dt b t v
      = BootStrap_modelfit aif resid dt t v
        + Radevec RAND_MAX rand T b t * (data t v - BootStrap_modelfit aif resid dt t v) ∧
    BootStrap_modelfit aif resid dt t v
      = dt * ∑ j : Fin (T + P),
          convmtx_circular (padCol (Column aif v) P) (Fin.castAdd P t) j * resid j v ∧
    ((Radevec RAND_MAX rand T b t : α) = 1 ∨ (Radevec RAND_MAX rand T b t : α) = -1) ∧
    ((Radevec RAND_MAX rand T b t : α) = 1 →
      BootStrap_WBdata RAND_MAX rand aif data resid dt b t v = data t v) ∧
    ((Radevec RAND_MAX rand T b t : α) = -1 →
      BootStrap_WBdata RAND_MAX rand aif data resid dt b t v
        = 2 * BootStrap_modelfit aif resid dt t v - data t v) := by
  have h1 : BootStrap_WBdata RAND_MAX rand aif data resid dt b t v
      = BootStrap_modelfit aif resid dt t v
        + Radevec RAND_MAX rand T b t * (data t v - BootStrap_modelfit aif resid dt t v) := by
    simp only [BootStrap_WBdata, BootStrap_residuals, Matrix.add_apply, Matrix.of_apply,
      Matrix.sub_apply]
    ring
  refine ⟨h1, ?_, Radevec_cases RAND_MAX rand T b t, ?_, ?_⟩
  · simp only [BootStrap_modelfit, Matrix.of_apply, Matrix.mulVec, Matrix.dotProduct, Column,
      Matrix.smul_apply, smul_eq_mul]
    rw [Finset.mul_sum]
    apply Finset.sum_congr rfl
    intro j _
    ring
  · intro h
    rw [h1, h]
    ring
  · intro h
    rw [h1, h]
    ring

/-! ### `Estimate_BAT_difference` -/

theorem lastMax_fold {n : ℕ} (r : Fin (n + 1) → α) (L : List (Fin (n + 1))) :
    ∀ b : Fin (n + 1),
      r b ≤ r (L.foldl (fun b j => if r b ≤ r j then j else b) b) ∧
      ∀ j ∈ L, r j ≤ r (L.foldl (fun b j => if r b ≤ r j then j else b) b) := by
  induction L with
  | nil => intro b; simp
  | cons a L ih =>
    intro b
    simp only [List.foldl_cons, List.mem_cons]
    obtain ⟨h1, h2⟩ := ih (if r b ≤ r a then a else b)
    have hb : r b ≤ r (if r b ≤ r a then a else b) := by
      by_cases h : r b ≤ r a
      · rw [if_pos h]; exact h
      · rw [if_neg h]
    have ha : r a ≤ r (if r b ≤ r a then a else b) := by
      by_cases h : r b ≤ r a
      · rw [if_pos h]
      · rw [if_neg h]; exact le_of_lt (not_le.mp h)
    refine ⟨le_trans hb h1, ?_⟩
    rintro j (rfl | hj)
    · exact le_trans ha h1
    · exact h2 j hj

/-- The scan `lastMax` meets the contract of `Maximum1`. -/
theorem lastMax_isMaximum1 {n : ℕ} :
    IsMaximum1 (lastMax : (Fin (n + 1) → α) → Fin (n + 1)) := by
  intro r j
  exact (lastMax_fold r (List.finRange (n + 1)) 0).2 j (List.mem_finRange j)

theorem Maximum1_unique {N : ℕ} (Maximum1 : (Fin N → α) → Fin N) (hM : IsMaximum1 Maximum1)
    (r : Fin N → α) (k : Fin N) (hk : ∀ j, j ≠ k → r j < r k) : Maximum1 r = k := by
  by_contra h
  exact absurd (hM r k) (not_le.mpr (hk _ h))

theorem Estimate_BAT_difference_at {N V : ℕ} (Maximum1 : (Fin N → α) → Fin N)
    (resid : Matrix (Fin N) (Fin V) α) (dt : α) (v : Fin V) (k : Fin N)
    (hk : Maximum1 (Column resid v) = k) :
    Estimate_BAT_difference Maximum1 resid dt v
      = if k.val + 1 ≤ N / 2 then dt * (((k.val + 1 : ℕ) : α) - 1)
        else dt * (((k.val + 1 : ℕ) : α) - (N : α) - 1) := by
  unfold Estimate_BAT_difference
  simp only [hk]
  by_cases h : k.val + 1 ≤ N / 2
  · rw [if_pos h, if_neg (by push_cast; omega)]
    push_cast
    ring
  · rw [if_neg h, if_pos (by push_cast; omega)]
    push_cast
    ring

/-- C13: for every residue matrix with `N` rows, every `dt` and every column `v` whose maximum
is attained at a unique index `k` (1-based `k + 1` here), `Estimate_BAT_difference` returns
`dt·(k-1)` when `k ≤ ⌊N/2⌋` and `dt·(k-N-1)` when `k > ⌊N/2⌋`, for any `Maximum1` that returns
the location of a maximum. -/
theorem Estimate_BAT_difference_unique_peak {N V : ℕ} (Maximum1 : (Fin N → α) → Fin N)
    (hM : IsMaximum1 Maximum1) (resid : Matrix (Fin N) (Fin V) α) (dt : α) (v : Fin V)
    (k : Fin N) (hk : ∀ j, j ≠ k → resid j v < resid k v) :
    Estimate_BAT_difference Maximum1 resid dt v
      = if k.val + 1 ≤ N / 2 then dt * (((k.val + 1 : ℕ) : α) - 1)
        else dt * (((k.val + 1 : ℕ) : α) - (N : α) - 1) :=
  Estimate_BAT_difference_at Maximum1 resid dt v k
    (Maximum1_unique Maximum1 hM (Column resid v) k hk)

/-- Instance of C13, scenario S2: `N = 5`, peak at index 2, `dt = 1` gives `1`. -/
theorem Estimate_BAT_difference_unique_peak_witness :
    IsMaximum1 (lastMax : (Fin 5 → ℚ) → Fin 5) ∧
    (∀ j : Fin 5, j ≠ 1 → residS2 j 0 < residS2 1 0) ∧
    Estimate_BAT_difference lastMax residS2 1 0
      = (if (1 : Fin 5).val + 1 ≤ 5 / 2 then 1 * ((((1 : Fin 5).val + 1 : ℕ) : ℚ) - 1)
        else 1 * ((((1 : Fin 5).val + 1 : ℕ) : ℚ) - (5 : ℕ) - 1)) ∧
    Estimate_BAT_difference lastMax residS2 1 0 = 1 :=
  ⟨lastMax_isMaximum1, by decide!,
    Estimate_BAT_difference_unique_peak lastMax lastMax_isMaximum1 residS2 1 0 1 (by decide!),
    by decide!⟩

/-- C14 as stated fails for the residue column `[0, 0, 0, 1, 0]` with `dt = 1`: the unique
maximum is at index 4, `4 > 5/2` gives `battemp = 4 - 5 = -1`, and
`batd = dt·(battemp - 1) = -2`, not `-1`. -/
theorem Estimate_BAT_difference_S3_is_minus_two :
    (∀ j : Fin 5, j ≠ 3 → residS3 j 0 < residS3 3 0) ∧
    Estimate_BAT_difference lastMax residS3 1 0 = -2 ∧
    Estimate_BAT_difference lastMax residS3 1 0 ≠ -1 := by
  decide!

/-- C14, amended (scenario S3): for a residue column of length 5 whose unique maximum is at
1-based index 4 and `dt = 1`, `Estimate_BAT_difference` returns `batd = -2`. -/
theorem Estimate_BAT_difference_scenario_S3 {V : ℕ} (Maximum1 : (Fin 5 → α) → Fin 5)
    (hM : IsMaximum1 Maximum1) (resid : Matrix (Fin 5) (Fin V) α) (v : Fin V)
    (hk : ∀ j : Fin 5, j ≠ 3 → resid j v < resid 3 v) :
    Estimate_BAT_difference Maximum1 resid 1 v = -2 := by
  rw [Estimate_BAT_difference_at Maximum1 resid 1 v 3
    (Maximum1_unique Maximum1 hM (Column resid v) 3 hk)]
  have h3 : ((3 : Fin 5) : ℕ) = 3 := rfl
  rw [h3]
  norm_num

/-- Instance of scenario S3 with the residue column `[0, 0, 0, 1, 0]`. -/
theorem Estimate_BAT_difference_scenario_S3_witness :
    IsMaximum1 (lastMax : (Fin 5 → ℚ) → Fin 5) ∧
    (∀ j : Fin 5, j ≠ 3 → residS3 j 0 < residS3 3 0) ∧
    Estimate_BAT_difference lastMax residS3 1 0 = -2 :=
  ⟨lastMax_isMaximum1, by decide!,
    Estimate_BAT_difference_scenario_S3 lastMax lastMax_isMaximum1 residS3 0 (by decide!)⟩
theorem Estimate_BAT_difference_range {N V : ℕ} (Maximum1 : (Fin N → α) → Fin N)
    (resid : Matrix (Fin N) (Fin V) α) (dt : α) (v : Fin V) :
    ∃ j : ℤ, -(((N - N / 2 : ℕ) : ℤ)) ≤ j ∧ j ≤ ((N / 2 : ℕ) : ℤ) - 1 ∧
      Estimate_BAT_difference Maximum1 resid dt v = dt * (j : α) := by
  have hk := (Maximum1 (Column resid v)).isLt
  by_cases h : (Maximum1 (Column resid v)).val + 1 ≤ N / 2
  · refine ⟨((Maximum1 (Column resid v)).val : ℤ), by omega, by omega, ?_⟩
    rw [Estimate_BAT_difference_at Maximum1 resid dt v _ rfl, if_pos h]
    push_cast
    ring
  · refine ⟨((Maximum1 (Column resid v)).val : ℤ) - (N : ℤ), by omega, by omega, ?_⟩
    rw [Estimate_BAT_difference_at Maximum1 resid dt v _ rfl, if_neg h]
    push_cast
    ring

theorem Estimate_BAT_difference_attained {N : ℕ} (Maximum1 : (Fin N → α) → Fin N)
    (hM : IsMaximum1 Maximum1) (dt : α) (j : ℤ)
    (h1 : -(((N - N / 2 : ℕ) : ℤ)) ≤ j) (h2 : j ≤ ((N / 2 : ℕ) : ℤ) - 1) :
    ∃ resid : Matrix (Fin N) (Fin 1) α,
      Estimate_BAT_difference Maximum1 resid dt 0 = dt * (j : α) := by
  have hidx : (if 0 ≤ j then j else j + (N : ℤ)).toNat < N := by
    split_ifs with h <;> omega
  have hpeak : ∀ i : Fin N, i ≠ ⟨_, hidx⟩ →
      (Matrix.of fun (t : Fin N) (_ : Fin 1) => if t = ⟨_, hidx⟩ then (1 : α) else 0) i 0
        < (Matrix.of fun (t : Fin N) (_ : Fin 1) => if t = ⟨_, hidx⟩ then (1 : α) else 0)
            ⟨_, hidx⟩ 0 := by
    intro i hi
    simp [hi]
  refine ⟨Matrix.of fun (t : Fin N) (_ : Fin 1) => if t = ⟨_, hidx⟩ then (1 : α) else 0, ?_⟩
  rw [Estimate_BAT_difference_at Maximum1 _ dt 0 ⟨_, hidx⟩
    (Maximum1_unique Maximum1 hM _ _ hpeak)]
  by_cases hj : 0 ≤ j
  · have hv : (if 0 ≤ j then j else j + (N : ℤ)).toNat = j.toNat := by rw [if_pos hj]
    simp only [hv]
    rw [if_pos (by omega)]
    have : ((j.toNat + 1 : ℕ) : α) = (j : α) + 1 := by
      have h3 : ((j.toNat : ℕ) : ℤ) = j := Int.toNat_of_nonneg hj
      have : ((j.toNat : ℕ) : α) = (j : α) := by exact_mod_cast congrArg (fun z : ℤ => (z : α)) h3
      push_cast
      rw [this]
    rw [this]
    ring
  · have hv : (if 0 ≤ j then j else j + (N : ℤ)).toNat = (j + (N : ℤ)).toNat := by
      rw [if_neg hj]
    simp only [hv]
    rw [if_neg (by omega)]
    have : (((j + (N : ℤ)).toNat + 1 : ℕ) : α) = (j : α) + (N : α) + 1 := by
      have h3 : (((j + (N : ℤ)).toNat : ℕ) : ℤ) = j + N := Int.toNat_of_nonneg (by omega)
      have : (((j + (N : ℤ)).toNat : ℕ) : α) = (j : α) + (N : α) := by
        exact_mod_cast congrArg (fun z : ℤ => (z : α)) h3
      push_cast
      rw [this]
    rw [this]
    ring

/-- C15 as stated fails for `N = 5`, `dt = 1`: the residue column `[0, 0, 1, 0, 0]` (peak at
index 3) gives `batd = -3`, which is not above `-N·dt/2 = -2.5`, and no residue column gives
`+3`. -/
theorem Estimate_BAT_difference_range_asymmetric :
    Estimate_BAT_difference lastMax residMid 1 0 = -3 ∧
    ¬ (-((5 : ℚ) * 1 / 2) < Estimate_BAT_difference lastMax residMid 1 0) ∧
    ∀ resid : Matrix (Fin 5) (Fin 1) ℚ, Estimate_BAT_difference lastMax resid 1 0 ≠ 3 := by
  refine ⟨by decide!, by decide!, ?_⟩
  intro resid h
  obtain ⟨j, _, h2, h3⟩ := Estimate_BAT_difference_range lastMax resid (1 : ℚ) 0
  rw [h3, one_mul] at h
  have : j = 3 := by exact_mod_cast h
  omega

/-- C15, amended: for every residue matrix with `N` rows, every `dt > 0` and every voxel,
`batd[v] = j·dt` for an integer `j` with `-(N - ⌊N/2⌋) ≤ j ≤ ⌊N/2⌋ - 1`, hence
`-(N - ⌊N/2⌋)·dt ≤ batd[v] ≤ (⌊N/2⌋ - 1)·dt`; and every such `j·dt` is returned for some
residue column. -/
theorem Estimate_BAT_difference_bounds {N V : ℕ} (Maximum1 : (Fin N → α) → Fin N)
    (hM : IsMaximum1 Maximum1) (dt : α) (hdt : 0 < dt) :
    (∀ (resid : Matrix (Fin N) (Fin V) α) (v : Fin V),
      -((N - N / 2 : ℕ) : α) * dt ≤ Estimate_BAT_difference Maximum1 resid dt v ∧
      Estimate_BAT_difference Maximum1 resid dt v ≤ (((N / 2 : ℕ) : α) - 1) * dt ∧
      ∃ j : ℤ, -(((N - N / 2 : ℕ) : ℤ)) ≤ j ∧ j ≤ ((N / 2 : ℕ) : ℤ) - 1 ∧
        Estimate_BAT_difference Maximum1 resid dt v = dt * (j : α)) ∧
    (∀ j : ℤ, -(((N - N / 2 : ℕ) : ℤ)) ≤ j → j ≤ ((N / 2 : ℕ) : ℤ) - 1 →
      ∃ resid : Matrix (Fin N) (Fin 1) α,
        Estimate_BAT_difference Maximum1 resid dt 0 = dt * (j : α)) := by
  refine ⟨fun resid v => ?_, fun j h1 h2 => Estimate_BAT_difference_attained Maximum1 hM dt j h1 h2⟩
  obtain ⟨j, h1, h2, h3⟩ := Estimate_BAT_difference_range Maximum1 resid dt v
  refine ⟨?_, ?_, j, h1, h2, h3⟩
  · rw [h3]
    have : (-((N - N / 2 : ℕ) : α)) ≤ (j : α) := by exact_mod_cast h1
    nlinarith
  · rw [h3]
    have : (j : α) ≤ ((N / 2 : ℕ) : α) - 1 := by exact_mod_cast h2
    nlinarith

/-- Instance of the range of `batd` for `N = 5`, `dt = 1`. -/
theorem Estimate_BAT_difference_bounds_witness :
    IsMaximum1 (lastMax : (Fin 5 → ℚ) → Fin 5) ∧ (0 : ℚ) < 1 ∧
    ((∀ (resid : Matrix (Fin 5) (Fin 1) ℚ) (v : Fin 1),
      -((5 - 5 / 2 : ℕ) : ℚ) * 1 ≤ Estimate_BAT_difference lastMax resid 1 v ∧
      Estimate_BAT_difference lastMax resid 1 v ≤ (((5 / 2 : ℕ) : ℚ) - 1) * 1 ∧
      ∃ j : ℤ, -(((5 - 5 / 2 : ℕ) : ℤ)) ≤ j ∧ j ≤ ((5 / 2 : ℕ) : ℤ) - 1 ∧
        Estimate_BAT_difference lastMax resid 1 v = 1 * (j : ℚ)) ∧
    (∀ j : ℤ, -(((5 - 5 / 2 : ℕ) : ℤ)) ≤ j → j ≤ ((5 / 2 : ℕ) : ℤ) - 1 →
      ∃ resid : Matrix (Fin 5) (Fin 1) ℚ,
        Estimate_BAT_difference lastMax resid 1 0 = 1 * (j : ℚ))) :=
  ⟨lastMax_isMaximum1, by norm_num,
    Estimate_BAT_difference_bounds lastMax lastMax_isMaximum1 1 (by norm_num)⟩

/-! ### `Estimate_onset` -/

/-- The iteration bound of `onsetLoop` is never reached: started with at least `ntpts - i`
iterations allowed, the loop stops at an `r` where the source condition `i < ntpts & cont` is
false, having found no gradient above the threshold before `r`. -/
theorem onsetLoop_exit (dgrad : List α) (gthresh : α) (ntpts : ℕ) :
    ∀ (f i : ℕ), ntpts ≤ f + i →
      i ≤ onsetLoop dgrad gthresh ntpts f i ∧
      (ntpts ≤ onsetLoop dgrad gthresh ntpts f i ∨
        dgrad.getD (onsetLoop dgrad gthresh ntpts f i - 1) 0 > gthresh) ∧
      ∀ j, i ≤ j → j < onsetLoop dgrad gthresh ntpts f i →
        j < ntpts ∧ ¬ dgrad.getD (j - 1) 0 > gthresh := by
  intro f
  induction f with
  | zero =>
    intro i hi
    simp only [onsetLoop]
    exact ⟨le_rfl, Or.inl (by omega), fun j h1 h2 => by omega⟩
  | succ f ih =>
    intro i hi
    by_cases h1 : i < ntpts
    · by_cases h2 : dgrad.getD (i - 1) 0 > gthresh
      · have : onsetLoop dgrad gthresh ntpts (f + 1) i = i := by
          rw [onsetLoop, if_pos h1, if_pos h2]
        rw [this]
        exact ⟨le_rfl, Or.inr h2, fun j h3 h4 => by omega⟩
      · have : onsetLoop dgrad gthresh ntpts (f + 1) i
            = onsetLoop dgrad gthresh ntpts f (i + 1) := by
          rw [onsetLoop, if_pos h1, if_neg h2]
        rw [this]
        obtain ⟨h3, h4, h5⟩ := ih (i + 1) (by omega)
        refine ⟨by omega, h4, fun j h6 h7 => ?_⟩
        by_cases h8 : j = i
        · subst h8; exact ⟨h1, h2⟩
        · exact h5 j (by omega) h7
    · have : onsetLoop dgrad gthresh ntpts (f + 1) i = i := by
        rw [onsetLoop, if_neg h1]
      rw [this]
      exact ⟨le_rfl, Or.inl (by omega), fun j h3 h4 => by omega⟩

theorem onsetLoop_smul (dgrad : List α) (g M : α) (ntpts : ℕ) (k : α) (hk : 0 < k) :
    ∀ (f i : ℕ), onsetLoop (dgrad.map (k * ·)) (g * (k * M)) ntpts f i
      = onsetLoop dgrad (g * M) ntpts f i := by
  intro f
  induction f with
  | zero => intro i; rfl
  | succ f ih =>
    intro i
    have hget : (dgrad.map (k * ·)).getD (i - 1) 0 = k * dgrad.getD (i - 1) 0 := by
      have := List.getD_map (f := fun x => k * x) (l := dgrad) (d := (0 : α)) (n := i - 1)
      simpa using this
    have hiff : ((dgrad.map (k * ·)).getD (i - 1) 0 > g * (k * M))
        ↔ (dgrad.getD (i - 1) 0 > g * M) := by
      rw [hget, show g * (k * M) = k * (g * M) by ring]
      exact mul_lt_mul_left hk
    by_cases h1 : i < ntpts
    · by_cases h2 : dgrad.getD (i - 1) 0 > g * M
      · rw [onsetLoop, onsetLoop, if_pos h1, if_pos h1, if_pos h2, if_pos (hiff.mpr h2)]
      · rw [onsetLoop, onsetLoop, if_pos h1, if_pos h1, if_neg h2,
          if_neg (fun h => h2 (hiff.mp h)), ih]
    · rw [onsetLoop, onsetLoop, if_neg h1, if_neg h1]

theorem forwardDiff_smul {T : ℕ} (k : α) (s : Fin T → α) :
    forwardDiff (k • s) = (forwardDiff s).map (k * ·) := by
  unfold forwardDiff
  rw [Rows_smul, Rows_smul, zipWith_map_both (· - ·) (k * ·) (fun a b => by ring)]

theorem Estimate_onset_smul {T V : ℕ} (curves : Matrix (Fin T) (Fin V) α)
    (dt gradient_threshold k : α) (hk : 0 < k) :
    Estimate_onset (k • curves) dt gradient_threshold
      = Estimate_onset curves dt gradient_threshold := by
  unfold Estimate_onset
  by_cases h : T < 7 ∨ V = 0
  · rw [if_pos h, if_pos h]
  · rw [if_neg h, if_neg h]
    congr 1
    funext v
    have hc : Column (k • curves) v = k • Column curves v := rfl
    simp only [hc, Matrix.mulVec_smul, forwardDiff_smul, listMax_smul k (le_of_lt hk),
      onsetLoop_smul _ _ _ _ k hk]

/-- C16 as stated fails: on the curve `[0, 0, 0, 5, 5, 5, 5]` with `dt = 1` and
`gradient_threshold = 0.2`, `Estimate_onset` does not return `2`. -/
theorem Estimate_onset_S4_not_two :
    (Estimate_onset curveS4 1 (2 / 10)).map (fun bate => bate 0) ≠ some 2 := by
  decide!

/-- C16, amended (scenario S4): `Estimate_onset` applied to the single curve
`[0, 0, 0, 5, 5, 5, 5]` with `dt = 1` and `gradient_threshold = 0.2` returns `bate = 4`: the
causal kernel gives the gradient `[0, 0, 0.03, 0.305, 1.21, 1.915]`, the threshold is `0.383`,
and the first gradient above it is the fifth. -/
theorem Estimate_onset_scenario_S4 :
    (Estimate_onset curveS4 1 (2 / 10)).map (fun bate => bate 0) = some 4 ∧
    forwardDiff ((convmtx (onsetKernel 7 : Fin 7 → ℚ)).mulVec (Column curveS4 0))
      = [0, 0, 3 / 100, 61 / 200, 121 / 100, 383 / 200] := by
  decide!

/-- C17: for every `T ≥ 7`, every `dt` and `gradient_threshold`, all curves of length `T` and
every factor `k > 0`, `Estimate_onset` returns a result and returns the same `bate` for
`k·curves` as for `curves`. -/
theorem Estimate_onset_amplitude_independent {T V : ℕ} (curves : Matrix (Fin T) (Fin V) α)
    (dt gradient_threshold k : α) (hT : 7 ≤ T) (hV : 0 < V) (hk : 0 < k) :
    Estimate_onset (k • curves) dt gradient_threshold
      = Estimate_onset curves dt gradient_threshold ∧
    ∃ bate, Estimate_onset curves dt gradient_threshold = some bate := by
  refine ⟨Estimate_onset_smul curves dt gradient_threshold k hk, ?_⟩
  unfold Estimate_onset
  rw [if_neg (by omega)]
  exact ⟨_, rfl⟩

/-- Instance of C17: the curve of scenario S4 scaled by `3`. -/
theorem Estimate_onset_amplitude_independent_witness :
    7 ≤ 7 ∧ 0 < 1 ∧ (0 : ℚ) < 3 ∧
    Estimate_onset ((3 : ℚ) • curveS4) 1 (2 / 10) = Estimate_onset curveS4 1 (2 / 10) ∧
    ∃ bate, Estimate_onset curveS4 1 (2 / 10) = some bate :=
  ⟨by decide, by decide, by norm_num,
    Estimate_onset_amplitude_independent curveS4 1 (2 / 10) 3 (by decide) (by decide)
      (by norm_num)⟩

/-! ### `Correct_magnitude` -/

theorem faExponent_S6 [FloorRing α] : faExponent (1 : α) (1 / 2) = 1 := by
  unfold faExponent
  rw [Int.floor_eq_iff]
  constructor <;> norm_num

theorem cos_sixty_degrees : Real.cos (60 / 180 * Real.pi) = 1 / 2 := by
  rw [show (60 : ℝ) / 180 * Real.pi = Real.pi / 3 by ring]
  exact Real.cos_pi_div_three

theorem Correct_magnitude_S6_value (T1 : ℝ) :
    Correct_magnitude Real.exp Real.cos Real.pi ![1] ![1] T1 (1 / 2) 60 0
      = 2 * Real.exp (1 / T1) := by
  unfold Correct_magnitude
  simp only [Matrix.cons_val_zero]
  rw [if_pos (by norm_num), faExponent_S6, cos_sixty_degrees]
  norm_num
  ring

/-- C18 as stated fails: for `batd = 1`, `dt = 0.5` the exponent `⌊(1 - 10⁻³)/0.5⌋ = ⌊1.998⌋`
is not `2`, and with `T1 = 1` the corrected magnitude is not `4·exp(1/T1)`. -/
theorem Correct_magnitude_S6_exponent_is_one :
    faExponent (1 : ℝ) (1 / 2) ≠ 2 ∧
    Correct_magnitude Real.exp Real.cos Real.pi ![1] ![1] 1 (1 / 2) 60 0
      ≠ 4 * Real.exp (1 / 1) := by
  constructor
  · rw [faExponent_S6]
    decide
  · rw [Correct_magnitude_S6_value]
    have := Real.exp_pos (1 / 1 : ℝ)
    intro h
    linarith

/-- C18, amended (scenario S6): for `mag = [1]`, `batd = [1]`, `dt = 0.5` and `fa = 60°` the
flip-angle exponent `⌊(batd - 10⁻³)/dt⌋` is `1`, the flip-angle multiplier is
`1/cos(60°) = 2`, and the corrected magnitude is `2·exp(1/T1)`. -/
theorem Correct_magnitude_scenario_S6 (T1 : ℝ) :
    faExponent (1 : ℝ) (1 / 2) = 1 ∧
    1 / (Real.cos (60 / 180 * Real.pi)) ^ (faExponent (1 : ℝ) (1 / 2)) = 2 ∧
    Correct_magnitude Real.exp Real.cos Real.pi ![1] ![1] T1 (1 / 2) 60 0
      = 2 * Real.exp (1 / T1) := by
  refine ⟨faExponent_S6, ?_, Correct_magnitude_S6_value T1⟩
  rw [faExponent_S6, cos_sixty_degrees]
  norm_num

/-! ### `Prepare_AIF` -/

theorem mem_loopIndices (nx ny nz : ℕ) (s : ℕ × ℕ × ℕ) :
    s ∈ loopIndices nx ny nz ↔ s.1 ≤ nx ∧ s.2.1 ≤ ny ∧ s.2.2 ≤ nz := by
  obtain ⟨x, y, z⟩ := s
  simp only [loopIndices, List.mem_flatMap, List.mem_map, List.mem_range, Prod.mk.injEq]
  constructor
  · rintro ⟨a, ha, b, hb, c, hc, h1, h2, h3⟩
    subst h1 h2 h3
    exact ⟨by omega, by omega, by omega⟩
  · rintro ⟨h1, h2, h3⟩
    exact ⟨x, by omega, y, by omega, z, by omega, rfl, rfl, rfl⟩

/-- C20 fails on the code: the loops run `x = 0..nx`, `y = 0..ny`, `z = 0..nz` inclusive, so
for every size the index `(nx, ny, nz)` is visited though it lies outside the volume; for a
volume of one voxel eight indices are visited.  The values read there reach the result: for the
volume of size `2 × 1 × 1` with `mthresh = 0` and zero-padded reads, the indices `(0, 0, 1)` and
`(0, 1, 0)` count as donors of `(0, 0, 0)` and its new AIF is `(6 + 0 + 0)/3 = 2`, where the
mean over the donors inside the volume is `6`. -/
theorem Prepare_AIF_reads_outside_volume :
    (∀ nx ny nz : ℕ, (nx, ny, nz) ∈ loopIndices nx ny nz ∧ ¬ inVolume nx ny nz (nx, ny, nz)) ∧
    (loopIndices 1 1 1 = [(0, 0, 0), (0, 0, 1), (0, 1, 0), (0, 1, 1), (1, 0, 0), (1, 0, 1),
      (1, 1, 0), (1, 1, 1)]) ∧
    (Prepare_AIF 2 1 1 aifTwo metricTwo maskTwo 0).map (fun out => out (0, 0, 0) 0) = some 2 ∧
    donorMean 2 1 1 aifTwo metricTwo 0 (0, 0, 0) 0 = 6 := by
  refine ⟨fun nx ny nz => ⟨?_, ?_⟩, by decide, by decide!, by decide!⟩
  · rw [mem_loopIndices]
    exact ⟨le_rfl, le_rfl, le_rfl⟩
  · unfold inVolume
    simp

end OXASL
